import Mathlib

/-!
Verification of the order/position reconciliation engine of
react-native-draggable-grid (src/draggable-grid.tsx).

The shallow embedding below translates the mutable state of the component
(`orderMap.current`, `itemMap.current`, `items.current`) into an explicit
`GridState`, and the event handlers (`onHandMove`, `onHandRelease`,
`resetBlockPositionByOrder`, `diffData`, `addItem`, `removeItem`,
`getSortData`, `getBlockPositionByOrder`) into state-passing functions.

Modelling conventions, justified against the JS/TS source:

* JS objects used as string-keyed maps (`orderMap.current`, `itemMap.current`)
  become insertion-ordered association lists `List (String × _)`.  Property
  read is first-match lookup (`alGet`), property write updates the entry in
  place when the key is present and appends otherwise (`alSet`), `delete`
  removes the entry (`alDelete`), and `findKey` scans entries in insertion
  order (`findKeyByOrder`).  This matches JS object key iteration order for
  string keys.

* JS numbers are modelled as exact integers: order indices, loop counters
  and pixel quantities.  Every numeric operation the source performs on
  them (+, -, *, %, Math.floor, Math.max, Math.min, squaring) is exact
  ring arithmetic and order comparison, so `Int` carries the content of
  the claims while keeping every definition kernel-computable.

* `getDistance` in the source returns `Math.sqrt(xD^2 + yD^2)` and every
  consumer only compares distances with each other or with `blockWidth`.
  Since `Real.sqrt` is strictly monotone on nonnegatives, we keep the
  squared distance and compare against squared bounds; theorems that rely
  on the comparison with `blockWidth` carry the hypothesis
  `0 ≤ blockWidth` (true in the source, where
  `blockWidth = layout.width / numColumns`).

* Reads of a property of `undefined` (e.g. `orderMap.current[key].order`
  when `key` is absent, or `endOffset.x` in `getDistance` when a block
  position is missing) throw a TypeError in JS; operations that can hit
  such a read return `Option` and produce `none` there.

* `Animated` side effects carry no registry information; calls to
  `moveBlockToBlockOrderPosition` (the only place a timed position
  animation toward a new order is scheduled) are logged as the scheduled
  item keys in an accompanying `List String`.  `blockPositions.current`
  is geometry that the drag handlers only read; it is passed in `DragCtx`
  (`addItem`'s `blockPositions.push` and `removeItem`'s `pop` touch no
  order data and are dropped together with the animated value handles).
-/

/-- Items of the external data list (`IBaseItemType` plus user payload):
a stable string `key`, the `disabledDrag` and `disabledReSorted` opt-out
flags, and an abstract `payload` standing for the remaining fields of the
user's `DataType` record. -/
structure Item where
  key : String
  disabledDrag : Bool
  disabledReSorted : Bool
  payload : Int
  deriving DecidableEq

/-- Pixel offset (`IPositionOffset`). -/
structure Pos where
  x : ℤ
  y : ℤ
  deriving DecidableEq

/-- First-match lookup in a JS-object-as-map: `m[k]`, `undefined ↦ none`. -/
def alGet {α : Type} (m : List (String × α)) (k : String) : Option α :=
  (m.find? fun p => decide (p.1 = k)).map Prod.snd

/-- JS property write `m[k] = v`: overwrite in place when present, append
otherwise. -/
def alSet {α : Type} (m : List (String × α)) (k : String) (v : α) :
    List (String × α) :=
  if m.any (fun p => decide (p.1 = k)) then
    m.map fun p => if p.1 = k then (k, v) else p
  else m ++ [(k, v)]

/-- JS compound write `m[k].order += d` on the order registry. -/
def alAdjust (m : List (String × Int)) (k : String) (d : Int) :
    List (String × Int) :=
  m.map fun p => if p.1 = k then (p.1, p.2 + d) else p

/-- JS `delete m[k]`. -/
def alDelete {α : Type} (m : List (String × α)) (k : String) :
    List (String × α) :=
  m.filter fun p => decide (p.1 ≠ k)

/-- The mutable registries of the component: `items.current` (each entry's
`key` equals its `itemData.key`, so the record and the payload are fused),
`orderMap.current` and `itemMap.current`. -/
structure GridState where
  items : List Item
  orderMap : List (String × Int)
  itemMap : List (String × Item)
  deriving DecidableEq

/-- Keys of a list of items, in order. -/
def keysOf (l : List Item) : List String :=
  l.map Item.key

/-- Pairs every element with its index, starting at `n` (the index argument
JS `forEach` supplies). -/
def withIdx {α : Type} : Nat → List α → List (Nat × α)
  | _, [] => []
  | n, a :: l => (n, a) :: withIdx (n + 1) l

/-- Multiset of `order` values stored in the registry. -/
def ordersM (s : GridState) : Multiset Int :=
  (s.orderMap.map Prod.snd : List Int)

/-- The multiset `{0, ..., n-1}` of expected order values. -/
def rangeM (n : Nat) : Multiset Int :=
  ((List.range n).map (fun (i : Nat) => (i : Int)) : List Int)

/-- Registry invariant: the multiset of stored orders is exactly
`{0, ..., n-1}` for `n` the number of tracked items. -/
def PermInv (s : GridState) : Prop :=
  ordersM s = rangeM s.items.length

/-- Structural well-formedness that the component maintains: the two
keyed registries have no duplicate keys, `orderMap` tracks exactly the
keys of `items.current`, and for every live item `itemMap` holds that
item's current data (`diffData` and `addItem` write both together;
`removeItem` deletes only the `orderMap` entry, so `itemMap` may keep
stale entries for dead keys, which `WFcore` does not constrain). -/
def WFcore (s : GridState) : Prop :=
  (s.orderMap.map Prod.fst).Nodup ∧
  (s.itemMap.map Prod.fst).Nodup ∧
  (s.orderMap.map Prod.fst).Perm (keysOf s.items) ∧
  ∀ it ∈ s.items, alGet s.itemMap it.key = some it

/-- Truthiness of `item && item.disabledReSorted` for
`item = itemMap.current[key]`: a missing entry is falsy. -/
def isDisabledIn (s : GridState) (k : String) : Bool :=
  ((alGet s.itemMap k).map Item.disabledReSorted).getD false

/-- Source `getKeyByOrder`: `findKey(orderMap.current, item => item.order
=== order)`, the first key (in insertion order) holding `order`. -/
def findKeyByOrder (m : List (String × Int)) (o : Int) : Option String :=
  (m.find? fun p => decide (p.2 = o)).map Prod.fst

/-- Ambient data the drag handlers read besides the registries:
`gridLayout.width`, `blockWidth`, `activeBlockOffset.current`,
`blockPositions.current`, `activeItemIndex` and `isDragging.current`. -/
structure DragCtx where
  gridWidth : ℤ
  blockWidth : ℤ
  activeBlockOffset : Pos
  blockPositions : List Pos
  activeItemIndex : Option Nat
  isDragging : Bool
  deriving DecidableEq

/-- Source `getBlockPositionByOrder`: return the cached position when the
cache holds the index (the cached `{x, y}` object is truthy), otherwise
`x = (order % numColumns) * blockWidth`,
`y = blockHeight * Math.floor(order / numColumns)`. -/
def getBlockPositionByOrder (blockPositions : List Pos) (numColumns : Nat)
    (blockWidth blockHeight : ℤ) (order : Nat) : Pos :=
  match blockPositions.get? order with
  | some p => p
  | none =>
    let columnOnRow := order % numColumns
    { x := (columnOnRow : ℤ) * blockWidth
      y := blockHeight * ((order / numColumns : Nat) : ℤ) }

/-- Source `getDistance` up to squaring: the source returns
`Math.sqrt(xD² + yD²)`; we keep `xD² + yD²` (written with `*` for
`Math.pow(_, 2)`), and every comparison made on distances is mirrored on
squares. -/
def getDistance (ctx : DragCtx) (startOffset endOffset : Pos) : ℤ :=
  let xDistance := startOffset.x + ctx.activeBlockOffset.x - endOffset.x
  let yDistance := startOffset.y + ctx.activeBlockOffset.y - endOffset.y
  xDistance * xDistance + yDistance * yDistance

/-- Squared right-hand side of the source comparison
`distance < blockWidth`. -/
def blockWidthSq (ctx : DragCtx) : ℤ :=
  ctx.blockWidth * ctx.blockWidth

/-- JS array read `blockPositions[order]` with an `Int` index: negative or
out-of-range indices give `undefined`. -/
def posAt (ps : List Pos) (o : Int) : Option Pos :=
  if o < 0 then none else ps.get? o.toNat

/-- The drag position computed by `onHandMove` from a move event:
`xChokeAmount = Math.max(0, activeBlockOffset.x + moveX - (gridLayout.width
- blockWidth))`, `xMinChokeAmount = Math.min(0, activeBlockOffset.x +
moveX)`, `dragPosition = { x: moveX + xChokeAmount + xMinChokeAmount,
y: moveY }` (the two choke amounts are added in the source). -/
def dragPositionOf (ctx : DragCtx) (moveX moveY : ℤ) : Pos :=
  let xChokeAmount :=
    max 0 (ctx.activeBlockOffset.x + moveX - (ctx.gridWidth - ctx.blockWidth))
  let xMinChokeAmount := min 0 (ctx.activeBlockOffset.x + moveX)
  { x := moveX + xChokeAmount + xMinChokeAmount, y := moveY }

/-- Squared distance from the drag position to a candidate item's resolved
position, `getDistance(dragPosition,
blockPositions.current[orderMap.current[item.key].order])`; `none` when a
lookup hits `undefined` (the source would throw). -/
def itemDist (ctx : DragCtx) (s : GridState) (dragPos : Pos) (item : Item) :
    Option ℤ :=
  (alGet s.orderMap item.key).bind fun o =>
    (posAt ctx.blockPositions o).map fun p => getDistance ctx dragPos p

/-- The `items.current.forEach` scan of `onHandMove` (source lines
163-178): fold over the indexed item list keeping `(closetItemIndex,
closetDistance)`; `disabledReSorted` items and the active index are
skipped, and a candidate strictly closer than the running minimum and
strictly closer than one cell width replaces the accumulator. -/
def scanItems (ctx : DragCtx) (s : GridState) (ai : Nat) (dragPos : Pos) :
    List (Nat × Item) → Nat × ℤ → Option (Nat × ℤ)
  | [], acc => some acc
  | (index, item) :: rest, (ci, cd) =>
    if item.disabledReSorted then scanItems ctx s ai dragPos rest (ci, cd)
    else if index ≠ ai then
      match itemDist ctx s dragPos item with
      | none => none
      | some d =>
        if d < cd ∧ d < blockWidthSq ctx then
          scanItems ctx s ai dragPos rest (index, d)
        else scanItems ctx s ai dragPos rest (ci, cd)
    else scanItems ctx s ai dragPos rest (ci, cd)

/-- Decreasing loop of `resetBlockPositionByOrder` (drag target below the
active order): `for (i = activeItemOrder - 1; i >= insertedPositionOrder;
i--)`, carrying `disabledReSortedItemCount`.  A failing `getKeyByOrder`
would make the source dereference `undefined`, hence `none`. -/
def resetLoopDec : Nat → Int → Nat → GridState → List String →
    Option (GridState × List String)
  | 0, _, _, s, anims => some (s, anims)
  | steps + 1, i, cnt, s, anims =>
    match findKeyByOrder s.orderMap i with
    | none => none
    | some key =>
      if isDisabledIn s key then resetLoopDec steps (i - 1) (cnt + 1) s anims
      else
        resetLoopDec steps (i - 1) 0
          { s with orderMap := alAdjust s.orderMap key ((cnt : Int) + 1) }
          (anims ++ [key])

/-- Increasing loop of `resetBlockPositionByOrder` (drag target above the
active order): `for (i = activeItemOrder + 1; i <= insertedPositionOrder;
i++)`, shifting hit items down by `disabledReSortedItemCount + 1`. -/
def resetLoopInc : Nat → Int → Nat → GridState → List String →
    Option (GridState × List String)
  | 0, _, _, s, anims => some (s, anims)
  | steps + 1, i, cnt, s, anims =>
    match findKeyByOrder s.orderMap i with
    | none => none
    | some key =>
      if isDisabledIn s key then resetLoopInc steps (i + 1) (cnt + 1) s anims
      else
        resetLoopInc steps (i + 1) 0
          { s with orderMap := alAdjust s.orderMap key (-((cnt : Int) + 1)) }
          (anims ++ [key])

/-- Source `resetBlockPositionByOrder(activeItemOrder,
insertedPositionOrder)`. -/
def resetBlockPositionByOrder (s : GridState)
    (activeItemOrder insertedPositionOrder : Int) :
    Option (GridState × List String) :=
  if activeItemOrder > insertedPositionOrder then
    resetLoopDec (activeItemOrder - insertedPositionOrder).toNat
      (activeItemOrder - 1) 0 s []
  else
    resetLoopInc (insertedPositionOrder - activeItemOrder).toNat
      (activeItemOrder + 1) 0 s []

/-- Writes `arr[i] = v` on a JS array, growing it with holes (`none`). -/
def writeAt : List (Option Item) → Nat → Item → List (Option Item)
  | [], 0, v => [some v]
  | [], n + 1, v => none :: writeAt [] n v
  | _ :: t, 0, v => some v :: t
  | h :: t, n + 1, v => h :: writeAt t n v

/-- Source `getSortData`: `sortData[orderMap.current[item.key].order] =
item.itemData` for each tracked item.  A missing order entry or a negative
order makes the JS write land on a non-index property and not appear in
the array; those writes are skipped. -/
def getSortData (s : GridState) : List (Option Item) :=
  s.items.foldl
    (fun arr it =>
      match alGet s.orderMap it.key with
      | some o => if o < 0 then arr else writeAt arr o.toNat it
      | none => arr)
    []

/-- Result of a move event: the registry afterwards, the item keys whose
position animation toward their (new) order was scheduled by
`moveBlockToBlockOrderPosition`, and the `onResetSort` payload when that
callback fired (`getSortData()` evaluated after the mutation). -/
structure MoveOut where
  state : GridState
  anims : List String
  resetSortFired : Option (List (Option Item))
  deriving DecidableEq

/-- Source `onHandMove` (lines 143-185).  Early returns: no active item
index, index out of range (`getActiveItem()` falsy) or `!isDragging`.
Then the drag position, the active item's origin distance baseline, the
candidate scan, and — when the scan moved off the active index — the
shift `resetBlockPositionByOrder(activeOrder, closetOrder)` followed by
`orderMap.current[activeItem.key].order = closetOrder` and the
`onResetSort` notification. -/
def onHandMove (ctx : DragCtx) (s : GridState) (moveX moveY : ℤ) :
    Option MoveOut :=
  match ctx.activeItemIndex, ctx.isDragging with
  | some ai, true =>
    match s.items.get? ai with
    | none => some { state := s, anims := [], resetSortFired := none }
    | some activeItem =>
      match alGet s.orderMap activeItem.key with
      | none => none
      | some activeOrder =>
        match posAt ctx.blockPositions activeOrder with
        | none => none
        | some originPosition =>
          match scanItems ctx s ai (dragPositionOf ctx moveX moveY)
              (withIdx 0 s.items)
              (ai, getDistance ctx (dragPositionOf ctx moveX moveY)
                originPosition) with
          | none => none
          | some (ci, _) =>
            if ai = ci then
              some { state := s, anims := [], resetSortFired := none }
            else
              match s.items.get? ci with
              | none => none
              | some closetItem =>
                match alGet s.orderMap closetItem.key with
                | none => none
                | some closetOrder =>
                  (resetBlockPositionByOrder s activeOrder closetOrder).map
                    fun r =>
                      { state :=
                          { r.1 with
                            orderMap :=
                              alSet r.1.orderMap activeItem.key closetOrder }
                        anims := r.2
                        resetSortFired := some (getSortData
                          { r.1 with
                            orderMap :=
                              alSet r.1.orderMap activeItem.key
                                closetOrder }) }
  | _, _ => some { state := s, anims := [], resetSortFired := none }

/-- Result of a release event: the registry (never mutated by
`onHandRelease`), the keys animated by `moveBlockToBlockOrderPosition`,
the `onDragRelease` payload when it fired, and the resulting
`isDragging.current`. -/
structure ReleaseOut where
  state : GridState
  anims : List String
  released : Option (List (Option Item))
  draggingAfter : Bool
  deriving DecidableEq

/-- Source `onHandRelease` (lines 187-204): with no active item
(`getActiveItem()` falsy) it returns immediately; otherwise it fires
`onDragRelease(getSortData())`, settles the active item to its order's
position and clears `isDragging`. -/
def onHandRelease (ctx : DragCtx) (s : GridState) : ReleaseOut :=
  match ctx.activeItemIndex with
  | none =>
    { state := s, anims := [], released := none
      draggingAfter := ctx.isDragging }
  | some ai =>
    match s.items.get? ai with
    | none =>
      { state := s, anims := [], released := none
        draggingAfter := ctx.isDragging }
    | some activeItem =>
      { state := s, anims := [activeItem.key]
        released := some (getSortData s), draggingAfter := false }

/-- Source `addItem(item, index)` restricted to registry data: append the
runtime record, `orderMap.current[item.key] = { order: index }`,
`itemMap.current[item.key] = item` (the `blockPositions.push` and the
animated-value setup carry no order data). -/
def addItem (s : GridState) (item : Item) (index : Nat) : GridState :=
  { items := s.items ++ [item]
    orderMap := alSet s.orderMap item.key (index : Int)
    itemMap := alSet s.itemMap item.key item }

/-- Removes the first item with the given key (source `findIndex` +
`splice`). -/
def removeFirstKey : List Item → String → List Item
  | [], _ => []
  | it :: t, k => if it.key = k then t else it :: removeFirstKey t k

/-- Source `removeItem`: splice the runtime record out and delete the
`orderMap` entry; `itemMap.current` is left untouched by the source. -/
def removeItem (s : GridState) (item : Item) : GridState :=
  { items := removeFirstKey s.items item.key
    orderMap := alDelete s.orderMap item.key
    itemMap := s.itemMap }

/-- Replaces the first item holding `item.key` by `item`
(source `items.current.find(i => i.key === item.key)` followed by
`currentItem.itemData = item`). -/
def updateFirst : List Item → Item → List Item
  | [], _ => []
  | it :: t, item => if it.key = item.key then item :: t else
      it :: updateFirst t item

/-- One step of the `props.data.forEach` body of `diffData` for the entry
`(index, item)`: known keys get their order resynchronized to `index`
(animating when it changed) and their cached data refreshed; new keys go
through `addItem`. -/
def diffStep : GridState × List String → Nat × Item →
    GridState × List String
  | (s, anims), (index, item) =>
    match alGet s.orderMap item.key with
    | some o =>
      ({ items := updateFirst s.items item
         orderMap := if o ≠ (index : Int) then
           alSet s.orderMap item.key (index : Int) else s.orderMap
         itemMap := alSet s.itemMap item.key item },
        if o ≠ (index : Int) then anims ++ [item.key] else anims)
    | none => (addItem s item index, anims)

/-- Source `diffData` (lines 383-403): reconcile the registry against the
new external list, then remove every tracked item whose key left the list
(`differenceBy(items.current, props.data, 'key')`). -/
def diffData (s : GridState) (data : List Item) : GridState × List String :=
  let r := (withIdx 0 data).foldl diffStep (s, [])
  let deleteItems :=
    r.1.items.filter fun it => ¬ data.any fun d => decide (d.key = it.key)
  (deleteItems.foldl removeItem r.1, r.2)

/-! ### Concrete fixtures: a 2-column grid of four items -/

def gItem0 : Item :=
  { key := "a0", disabledDrag := false, disabledReSorted := false
    payload := 10 }

def gItem1 : Item :=
  { key := "a1", disabledDrag := false, disabledReSorted := false
    payload := 11 }

def gItem2 : Item :=
  { key := "a2", disabledDrag := false, disabledReSorted := false
    payload := 12 }

def gItem3 : Item :=
  { key := "a3", disabledDrag := false, disabledReSorted := false
    payload := 13 }

/-- Four items tracked at orders 0..3 (the state `diffData` builds from
the external list `[gItem0, gItem1, gItem2, gItem3]`). -/
def g4state : GridState :=
  { items := [gItem0, gItem1, gItem2, gItem3]
    orderMap := [("a0", 0), ("a1", 1), ("a2", 2), ("a3", 3)]
    itemMap := [("a0", gItem0), ("a1", gItem1), ("a2", gItem2),
      ("a3", gItem3)] }

/-- Drag context: 2 columns of 100px cells in a 200px-wide grid, item 0
grabbed with zero grab-time translation, resolved positions cached for
orders 0..3. -/
def g4ctx : DragCtx :=
  { gridWidth := 200, blockWidth := 100
    activeBlockOffset := { x := 0, y := 0 }
    blockPositions :=
      [{ x := 0, y := 0 }, { x := 100, y := 0 },
        { x := 0, y := 100 }, { x := 100, y := 100 }]
    activeItemIndex := some 0, isDragging := true }

/-- Context for the C4 evaluation: 200px grid, 100px cell, zero grab
offset. -/
def c4ctx : DragCtx :=
  { gridWidth := 200, blockWidth := 100
    activeBlockOffset := { x := 0, y := 0 }, blockPositions := []
    activeItemIndex := none, isDragging := true }

/-! ### Obstacle fixture: three items, the middle one disabledReSorted -/

def obsItem0 : Item :=
  { key := "b0", disabledDrag := false, disabledReSorted := false
    payload := 20 }

def obsItem1 : Item :=
  { key := "b1", disabledDrag := false, disabledReSorted := true
    payload := 21 }

def obsItem2 : Item :=
  { key := "b2", disabledDrag := false, disabledReSorted := false
    payload := 22 }

def obsState : GridState :=
  { items := [obsItem0, obsItem1, obsItem2]
    orderMap := [("b0", 0), ("b1", 1), ("b2", 2)]
    itemMap := [("b0", obsItem0), ("b1", obsItem1), ("b2", obsItem2)] }

def obsCtx : DragCtx :=
  { gridWidth := 200, blockWidth := 100
    activeBlockOffset := { x := 0, y := 0 }
    blockPositions :=
      [{ x := 0, y := 0 }, { x := 100, y := 0 }, { x := 0, y := 100 }]
    activeItemIndex := some 0, isDragging := true }

/-- The move output for dragging item 0 of `obsState` onto order 2: the
obstacle at order 1 keeps its order, the item at order 2 jumps over it to
order 0, the active key takes order 2. -/
def obsOut : MoveOut :=
  { state :=
      { items := [obsItem0, obsItem1, obsItem2]
        orderMap := [("b0", 2), ("b1", 1), ("b2", 0)]
        itemMap := [("b0", obsItem0), ("b1", obsItem1), ("b2", obsItem2)] }
    anims := ["b2"]
    resetSortFired := some [some obsItem2, some obsItem1, some obsItem0] }


/-! ### Association list lemmas -/

theorem alGet_cons {α : Type} (p : String × α) (m : List (String × α))
    (k : String) :
    alGet (p :: m) k = if p.1 = k then some p.2 else alGet m k := by
  by_cases h : p.1 = k <;> simp [alGet, List.find?, h]

theorem alGet_eq_none {α : Type} (m : List (String × α)) (k : String) :
    alGet m k = none ↔ k ∉ m.map Prod.fst := by
  induction m with
  | nil => simp [alGet]
  | cons p t ih =>
    rw [alGet_cons, List.map_cons]
    by_cases hp : p.1 = k
    · simp [if_pos hp, hp]
    · rw [if_neg hp, ih]
      simp only [List.mem_cons]
      constructor
      · intro h1 h2
        rcases h2 with h2 | h2
        · exact hp h2.symm
        · exact h1 h2
      · intro h1 h2
        exact h1 (Or.inr h2)

theorem alGet_isSome {α : Type} (m : List (String × α)) (k : String) :
    (alGet m k).isSome ↔ k ∈ m.map Prod.fst := by
  rw [Option.isSome_iff_ne_none, not_iff_comm, ← alGet_eq_none]

theorem alGet_mem {α : Type} {m : List (String × α)} {k : String} {v : α}
    (h : alGet m k = some v) : (k, v) ∈ m := by
  induction m with
  | nil => simp [alGet] at h
  | cons p t ih =>
    rw [alGet_cons] at h
    by_cases hp : p.1 = k
    · rw [if_pos hp] at h
      have hpkv : p = (k, v) := by
        obtain ⟨p1, p2⟩ := p
        simp only [Option.some.injEq] at h
        simp only at hp
        rw [hp, h]
      rw [hpkv]
      exact List.mem_cons_self _ _
    · rw [if_neg hp] at h
      exact List.mem_cons_of_mem _ (ih h)

theorem mem_alGet {α : Type} {m : List (String × α)} {k : String} {v : α}
    (hnd : (m.map Prod.fst).Nodup) (h : (k, v) ∈ m) : alGet m k = some v := by
  induction m with
  | nil => simp at h
  | cons p t ih =>
    rw [List.map_cons, List.nodup_cons] at hnd
    rcases List.mem_cons.1 h with h1 | h1
    · rw [← h1]
      simp [alGet_cons]
    · have hk : p.1 ≠ k := by
        intro he
        apply hnd.1
        rw [he]
        exact List.mem_map.2 ⟨(k, v), h1, rfl⟩
      rw [alGet_cons, if_neg hk]
      exact ih hnd.2 h1

theorem fst_nodup_unique {α : Type} {m : List (String × α)}
    (hnd : (m.map Prod.fst).Nodup) {q r : String × α} (hq : q ∈ m)
    (hr : r ∈ m) (h : q.1 = r.1) : q = r :=
  List.inj_on_of_nodup_map hnd hq hr h

theorem any_key_iff {α : Type} (m : List (String × α)) (k : String) :
    (m.any fun p => decide (p.1 = k)) = true ↔ k ∈ m.map Prod.fst := by
  simp only [List.any_eq_true, decide_eq_true_eq, List.mem_map]

theorem alGet_map_update_self {α : Type} {m : List (String × α)} {k : String}
    (v : α) (h : k ∈ m.map Prod.fst) :
    alGet (m.map fun p => if p.1 = k then (k, v) else p) k = some v := by
  induction m with
  | nil => simp at h
  | cons p t ih =>
    by_cases hp : p.1 = k
    · simp [alGet_cons, hp]
    · have h' : k ∈ t.map Prod.fst := by
        rcases List.mem_map.1 h with ⟨q, hq, hqk⟩
        rcases List.mem_cons.1 hq with h2 | h2
        · exact absurd (h2 ▸ hqk) hp
        · exact List.mem_map.2 ⟨q, h2, hqk⟩
      rw [List.map_cons, if_neg hp, alGet_cons, if_neg hp]
      exact ih h'

theorem alGet_map_update_ne {α : Type} (m : List (String × α)) (k : String)
    (v : α) {k' : String} (h : k' ≠ k) :
    alGet (m.map fun p => if p.1 = k then (k, v) else p) k' = alGet m k' := by
  induction m with
  | nil => rfl
  | cons p t ih =>
    by_cases hp : p.1 = k
    · have hkk' : ¬ k = k' := fun he => h he.symm
      have hp' : ¬ p.1 = k' := by rw [hp]; exact hkk'
      rw [List.map_cons, if_pos hp, alGet_cons, alGet_cons, if_neg hkk',
        if_neg hp', ih]
    · rw [List.map_cons, if_neg hp, alGet_cons, alGet_cons, ih]

theorem alGet_append_single_ne {α : Type} (m : List (String × α))
    (k : String) (v : α) {k' : String} (h : k' ≠ k) :
    alGet (m ++ [(k, v)]) k' = alGet m k' := by
  induction m with
  | nil =>
    rw [List.nil_append, alGet_cons, if_neg (fun he => h he.symm)]
  | cons p t ih =>
    rw [List.cons_append, alGet_cons, alGet_cons, ih]

theorem alGet_append_single_self {α : Type} {m : List (String × α)}
    {k : String} (v : α) (h : k ∉ m.map Prod.fst) :
    alGet (m ++ [(k, v)]) k = some v := by
  induction m with
  | nil => simp [alGet_cons]
  | cons p t ih =>
    rw [List.map_cons] at h
    have hp : p.1 ≠ k := fun he => h (he ▸ List.mem_cons_self _ _)
    rw [List.cons_append, alGet_cons, if_neg hp]
    exact ih fun hk => h (List.mem_cons_of_mem _ hk)

theorem alGet_alSet_self {α : Type} (m : List (String × α)) (k : String)
    (v : α) : alGet (alSet m k v) k = some v := by
  unfold alSet
  by_cases hmem : (m.any fun p => decide (p.1 = k)) = true
  · rw [if_pos hmem]
    exact alGet_map_update_self v ((any_key_iff m k).1 hmem)
  · rw [if_neg hmem]
    exact alGet_append_single_self v
      (fun hk => hmem ((any_key_iff m k).2 hk))

theorem alGet_alSet_ne {α : Type} (m : List (String × α)) (k : String)
    (v : α) {k' : String} (h : k' ≠ k) :
    alGet (alSet m k v) k' = alGet m k' := by
  unfold alSet
  by_cases hmem : (m.any fun p => decide (p.1 = k)) = true
  · rw [if_pos hmem]
    exact alGet_map_update_ne m k v h
  · rw [if_neg hmem]
    exact alGet_append_single_ne m k v h

theorem alSet_map_fst_mem {α : Type} {m : List (String × α)} {k : String}
    (v : α) (h : k ∈ m.map Prod.fst) :
    (alSet m k v).map Prod.fst = m.map Prod.fst := by
  unfold alSet
  rw [if_pos ((any_key_iff m k).2 h), List.map_map]
  apply List.map_congr_left
  intro p _
  by_cases hp : p.1 = k <;> simp [hp]

theorem alSet_map_fst_not_mem {α : Type} {m : List (String × α)} {k : String}
    (v : α) (h : k ∉ m.map Prod.fst) :
    (alSet m k v).map Prod.fst = m.map Prod.fst ++ [k] := by
  unfold alSet
  rw [if_neg (fun hm => h ((any_key_iff m k).1 hm))]
  simp

theorem alSet_nodup_fst {α : Type} {m : List (String × α)} {k : String}
    (v : α) (h : (m.map Prod.fst).Nodup) :
    ((alSet m k v).map Prod.fst).Nodup := by
  by_cases hk : k ∈ m.map Prod.fst
  · rwa [alSet_map_fst_mem v hk]
  · rw [alSet_map_fst_not_mem v hk]
    simp [List.nodup_append, h, hk]

theorem alSet_self_id {α : Type} {m : List (String × α)} {k : String} {v : α}
    (hnd : (m.map Prod.fst).Nodup) (h : alGet m k = some v) :
    alSet m k v = m := by
  unfold alSet
  rw [if_pos ((any_key_iff m k).2
    (List.mem_map.2 ⟨(k, v), alGet_mem h, rfl⟩))]
  have hcongr : ∀ q ∈ m, (if q.1 = k then (k, v) else q) = id q := by
    intro q hq
    by_cases hqk : q.1 = k
    · rw [if_pos hqk]
      exact fst_nodup_unique hnd (alGet_mem h) hq (by simp [hqk])
    · rw [if_neg hqk]
      rfl
  rw [List.map_congr_left hcongr, List.map_id]

theorem alAdjust_map_fst (m : List (String × Int)) (k : String) (d : Int) :
    (alAdjust m k d).map Prod.fst = m.map Prod.fst := by
  unfold alAdjust
  rw [List.map_map]
  apply List.map_congr_left
  intro p _
  by_cases hp : p.1 = k <;> simp [hp]

theorem alGet_alAdjust_self {m : List (String × Int)} {k : String} {v : Int}
    (h : alGet m k = some v) (d : Int) :
    alGet (alAdjust m k d) k = some (v + d) := by
  induction m with
  | nil => simp [alGet] at h
  | cons p t ih =>
    rw [alGet_cons] at h
    by_cases hp : p.1 = k
    · rw [if_pos hp] at h
      injection h with h
      unfold alAdjust
      rw [List.map_cons, if_pos hp, alGet_cons, if_pos hp, h]
    · rw [if_neg hp] at h
      unfold alAdjust at ih ⊢
      rw [List.map_cons, if_neg hp, alGet_cons, if_neg hp]
      exact ih h

theorem alGet_alAdjust_ne (m : List (String × Int)) (k : String) (d : Int)
    {k' : String} (h : k' ≠ k) :
    alGet (alAdjust m k d) k' = alGet m k' := by
  induction m with
  | nil => rfl
  | cons p t ih =>
    unfold alAdjust at ih ⊢
    by_cases hp : p.1 = k
    · have hp' : ¬ p.1 = k' := by
        rw [hp]
        exact fun he => h he.symm
      rw [List.map_cons, if_pos hp, alGet_cons, alGet_cons, if_neg hp',
        if_neg hp', ih]
    · rw [List.map_cons, if_neg hp, alGet_cons, alGet_cons, ih]

theorem erase_cons_of_mem {a v : Int} {M : Multiset Int} (h : v ∈ M) :
    (a ::ₘ M).erase v = a ::ₘ M.erase v := by
  by_cases hv : v = a
  · subst hv
    rw [Multiset.erase_cons_head, Multiset.cons_erase h]
  · rw [Multiset.erase_cons_tail]
    exact fun he => hv he.symm

theorem sndM_alAdjust {m : List (String × Int)} {k : String} {v : Int}
    (hnd : (m.map Prod.fst).Nodup) (h : alGet m k = some v) (d : Int) :
    ((alAdjust m k d).map Prod.snd : Multiset Int) =
      (v + d) ::ₘ ((m.map Prod.snd : Multiset Int)).erase v := by
  induction m with
  | nil => simp [alGet] at h
  | cons p t ih =>
    rw [List.map_cons, List.nodup_cons] at hnd
    rw [alGet_cons] at h
    by_cases hp : p.1 = k
    · rw [if_pos hp] at h
      injection h with h
      have ht : (t.map fun q => if q.1 = k then (q.1, q.2 + d) else q) = t := by
        have hcongr : ∀ q ∈ t, (if q.1 = k then (q.1, q.2 + d) else q) = id q := by
          intro q hq
          rw [if_neg]
          · rfl
          · intro hqk
            apply hnd.1
            rw [hp, ← hqk]
            exact List.mem_map.2 ⟨q, hq, rfl⟩
        rw [List.map_congr_left hcongr, List.map_id]
      simp only [alAdjust, List.map_cons, if_pos hp, ht]
      rw [← h, ← Multiset.cons_coe, ← Multiset.cons_coe,
        Multiset.erase_cons_head]
    · rw [if_neg hp] at h
      have hvmem : v ∈ ((t.map Prod.snd : List Int) : Multiset Int) := by
        have : (k, v) ∈ t := alGet_mem h
        exact Multiset.mem_coe.2 (List.mem_map.2 ⟨(k, v), this, rfl⟩)
      have iht := ih hnd.2 h
      simp only [alAdjust, List.map_cons, if_neg hp] at iht ⊢
      rw [← Multiset.cons_coe, ← Multiset.cons_coe, iht,
        erase_cons_of_mem hvmem, Multiset.cons_swap]

theorem sndM_map_update {m : List (String × Int)} {k : String} {v : Int}
    (hnd : (m.map Prod.fst).Nodup) (h : alGet m k = some v) (w : Int) :
    (((m.map fun p => if p.1 = k then (k, w) else p).map Prod.snd : List Int) :
        Multiset Int) =
      w ::ₘ ((m.map Prod.snd : List Int) : Multiset Int).erase v := by
  induction m with
  | nil => simp [alGet] at h
  | cons p t ih =>
    rw [List.map_cons, List.nodup_cons] at hnd
    rw [alGet_cons] at h
    by_cases hp : p.1 = k
    · rw [if_pos hp] at h
      injection h with h
      have ht : (t.map fun p => if p.1 = k then (k, w) else p) = t := by
        have hcongr : ∀ q ∈ t, (if q.1 = k then (k, w) else q) = id q := by
          intro q hq
          rw [if_neg]
          · rfl
          · intro hqk
            apply hnd.1
            rw [hp, ← hqk]
            exact List.mem_map.2 ⟨q, hq, rfl⟩
        rw [List.map_congr_left hcongr, List.map_id]
      simp only [List.map_cons, if_pos hp, ht]
      rw [← h, ← Multiset.cons_coe, ← Multiset.cons_coe,
        Multiset.erase_cons_head]
    · rw [if_neg hp] at h
      have hvmem : v ∈ ((t.map Prod.snd : List Int) : Multiset Int) :=
        Multiset.mem_coe.2 (List.mem_map.2 ⟨(k, v), alGet_mem h, rfl⟩)
      have iht := ih hnd.2 h
      simp only [List.map_cons, if_neg hp] at iht ⊢
      rw [← Multiset.cons_coe, ← Multiset.cons_coe, iht,
        erase_cons_of_mem hvmem, Multiset.cons_swap]

theorem sndM_alSet {m : List (String × Int)} {k : String} {v : Int}
    (hnd : (m.map Prod.fst).Nodup) (h : alGet m k = some v) (w : Int) :
    (((alSet m k w).map Prod.snd : List Int) : Multiset Int) =
      w ::ₘ ((m.map Prod.snd : List Int) : Multiset Int).erase v := by
  unfold alSet
  rw [if_pos ((any_key_iff m k).2
    (List.mem_map.2 ⟨(k, v), alGet_mem h, rfl⟩))]
  exact sndM_map_update hnd h w

theorem alGet_alDelete_self {α : Type} (m : List (String × α)) (k : String) :
    alGet (alDelete m k) k = none := by
  rw [alGet_eq_none]
  intro hk
  rcases List.mem_map.1 hk with ⟨q, hq, hqk⟩
  have hmem := List.of_mem_filter hq
  simp only [decide_eq_true_eq] at hmem
  exact hmem hqk

theorem alGet_alDelete_ne {α : Type} (m : List (String × α)) (k : String)
    {k' : String} (h : k' ≠ k) :
    alGet (alDelete m k) k' = alGet m k' := by
  induction m with
  | nil => rfl
  | cons p t ih =>
    unfold alDelete at ih ⊢
    rw [List.filter_cons]
    by_cases hp : p.1 = k
    · have hp' : ¬ p.1 = k' := by
        rw [hp]
        exact fun he => h he.symm
      have hc : decide (p.1 ≠ k) = false := by simp [hp]
      rw [hc, if_neg Bool.false_ne_true, ih, alGet_cons, if_neg hp']
    · have hc : decide (p.1 ≠ k) = true := by simp [hp]
      rw [hc]
      simp only [if_true]
      rw [alGet_cons, alGet_cons, ih]

theorem alDelete_nodup_fst {α : Type} {m : List (String × α)} (k : String)
    (h : (m.map Prod.fst).Nodup) : ((alDelete m k).map Prod.fst).Nodup :=
  ((List.filter_sublist m).map Prod.fst).nodup h

theorem mem_alDelete_fst {α : Type} (m : List (String × α)) (k k' : String) :
    k' ∈ (alDelete m k).map Prod.fst ↔ k' ∈ m.map Prod.fst ∧ k' ≠ k := by
  unfold alDelete
  constructor
  · intro hk
    rcases List.mem_map.1 hk with ⟨q, hq, hqk⟩
    have hmem := List.mem_of_mem_filter hq
    have hne := List.of_mem_filter hq
    simp only [decide_eq_true_eq] at hne
    exact ⟨List.mem_map.2 ⟨q, hmem, hqk⟩, hqk ▸ hne⟩
  · rintro ⟨hk, hne⟩
    rcases List.mem_map.1 hk with ⟨q, hq, hqk⟩
    refine List.mem_map.2 ⟨q, List.mem_filter.2 ⟨hq, ?_⟩, hqk⟩
    simp only [decide_eq_true_eq]
    exact hqk.symm ▸ hne

/-! ### Indexed list lemmas -/

theorem withIdx_fst_ge {α : Type} {n : Nat} {l : List α} {p : Nat × α}
    (h : p ∈ withIdx n l) : n ≤ p.1 := by
  induction l generalizing n with
  | nil => simp [withIdx] at h
  | cons a t ih =>
    rcases List.mem_cons.1 h with h1 | h1
    · rw [h1]
    · exact Nat.le_of_succ_le (ih h1)

theorem withIdx_mem_get {α : Type} {n : Nat} {l : List α} {p : Nat × α}
    (h : p ∈ withIdx n l) : n ≤ p.1 ∧ l.get? (p.1 - n) = some p.2 := by
  induction l generalizing n with
  | nil => simp [withIdx] at h
  | cons a t ih =>
    rcases List.mem_cons.1 h with h1 | h1
    · rw [h1]
      simp
    · have := ih h1
      have hge : n + 1 ≤ p.1 := this.1
      refine ⟨Nat.le_of_succ_le hge, ?_⟩
      have : p.1 - n = (p.1 - (n + 1)) + 1 := by omega
      rw [this]
      simpa using (ih h1).2

theorem get_withIdx_mem {α : Type} {l : List α} {i : Nat} {a : α}
    (h : l.get? i = some a) (n : Nat) : (n + i, a) ∈ withIdx n l := by
  induction l generalizing i n with
  | nil => simp at h
  | cons b t ih =>
    cases i with
    | zero =>
      simp at h
      rw [h]
      exact List.mem_cons_self _ _
    | succ j =>
      simp only [List.get?] at h
      have := ih h (n + 1)
      have harith : n + 1 + j = n + (j + 1) := by omega
      rw [harith] at this
      exact List.mem_cons_of_mem _ this

theorem withIdx_split_lt {α : Type} {n : Nat} {l : List α}
    {l₁ l₂ : List (Nat × α)} {q : Nat × α}
    (h : withIdx n l = l₁ ++ q :: l₂) :
    (∀ p ∈ l₁, p.1 < q.1) ∧ (∀ p ∈ l₂, q.1 < p.1) := by
  induction l generalizing n l₁ with
  | nil => simp [withIdx] at h
  | cons a t ih =>
    rw [withIdx] at h
    cases l₁ with
    | nil =>
      rw [List.nil_append] at h
      injection h with h1 h2
      constructor
      · intro p hp
        simp at hp
      · intro p hp
        rw [← h1]
        have : p ∈ withIdx (n + 1) t := h2 ▸ hp
        exact Nat.lt_of_lt_of_le (Nat.lt_succ_self n) (withIdx_fst_ge this)
    | cons b l₁' =>
      rw [List.cons_append] at h
      injection h with h1 h2
      have := ih h2
      constructor
      · intro p hp
        rcases List.mem_cons.1 hp with h3 | h3
        · rw [h3, ← h1]
          have : q ∈ withIdx (n + 1) t := by
            rw [h2]
            exact List.mem_append_right _ (List.mem_cons_self _ _)
          exact Nat.lt_of_lt_of_le (Nat.lt_succ_self n) (withIdx_fst_ge this)
        · exact this.1 p h3
      · exact this.2

/-- C4 (code bug): the claim says the drag position used by reconciliation
(pointer translation adjusted by the grab-time offset, here zero) is
clamped so its x stays in `[0, containerWidth - cellWidth] = [0, 100]`.
The source adds `xChokeAmount`/`xMinChokeAmount` to `moveX` instead of
subtracting them (line 154), so a translation of 150 — 50 past the right
bound — produces x = 200: the overshoot is doubled, not clamped (the
variables are computed exactly as the clamp idiom `max 0 (pos - upper)` /
`min 0 pos` prescribes, which documents the intent the claim describes).
The y coordinate is the raw vertical translation, as claimed. -/
theorem C4_horizontal_clamping_bug :
    (dragPositionOf c4ctx 150 0).x + c4ctx.activeBlockOffset.x = 200 ∧
      ¬ ((dragPositionOf c4ctx 150 0).x + c4ctx.activeBlockOffset.x ≤
          c4ctx.gridWidth - c4ctx.blockWidth) ∧
      (dragPositionOf c4ctx 150 0).y = 0 := by
  decide

/-- C5: with at least one column and a cache whose populated entries hold
exactly the formula values, `getBlockPositionByOrder` resolves every order
to `x = (order % numColumns) * blockWidth`,
`y = blockHeight * ⌊order / numColumns⌋`; being a pure function of its
arguments, it is stable, which is what lets the per-order cache hold
exactly this value. -/
theorem C5_position_formula (blockPositions : List Pos) (numColumns : Nat)
    (blockWidth blockHeight : ℤ) (order : Nat)
    (hcols : 1 ≤ numColumns)
    (hcache : ∀ i p, blockPositions.get? i = some p →
      p = { x := ((i % numColumns : Nat) : ℤ) * blockWidth
            y := blockHeight * ((i / numColumns : Nat) : ℤ) }) :
    getBlockPositionByOrder blockPositions numColumns blockWidth blockHeight
        order =
      { x := ((order % numColumns : Nat) : ℤ) * blockWidth
        y := blockHeight * ((order / numColumns : Nat) : ℤ) } := by
  unfold getBlockPositionByOrder
  cases hbp : blockPositions.get? order with
  | none => rfl
  | some p => exact hcache order p hbp

theorem C5_position_formula_witness :
    1 ≤ 2 ∧
      getBlockPositionByOrder [] 2 100 80 5 =
        { x := ((5 % 2 : Nat) : ℤ) * 100, y := 80 * ((5 / 2 : Nat) : ℤ) } :=
  ⟨by decide, C5_position_formula [] 2 100 80 5 (by decide)
    (by intro i p hp; simp at hp)⟩

/-- C6: on the four-item two-column grid, the move event at translation
(100, 100) selects the item at order 3 as swap target (its squared
distance 0 beats the baseline 20000 and the cell width), the shift
decrements the orders of the items previously at 1, 2, 3, the active item
takes order 3, and the release commits `onDragRelease` with the order
list `[item1, item2, item3, item0]`. -/
theorem C6_drag_release_round_trip :
    ((onHandMove g4ctx g4state 100 100).map fun out =>
        ((onHandRelease g4ctx out.state).released,
          alGet out.state.orderMap "a0", alGet out.state.orderMap "a1",
          alGet out.state.orderMap "a2", alGet out.state.orderMap "a3")) =
      some (some [some gItem1, some gItem2, some gItem3, some gItem0],
        some 3, some 0, some 1, some 2) := by
  decide

/-- C9: a release event with no active item index is a silent no-op: the
registry is returned unchanged, no position animation or offset flattening
is performed, no callback fires, and `isDragging` keeps its value. -/
theorem C9_release_no_active (ctx : DragCtx) (s : GridState)
    (h : ctx.activeItemIndex = none) :
    onHandRelease ctx s =
      { state := s, anims := [], released := none
        draggingAfter := ctx.isDragging } := by
  unfold onHandRelease
  rw [h]

theorem C9_release_no_active_witness :
    c4ctx.activeItemIndex = none ∧
      onHandRelease c4ctx g4state =
        { state := g4state, anims := [], released := none
          draggingAfter := c4ctx.isDragging } :=
  ⟨rfl, C9_release_no_active c4ctx g4state rfl⟩

/-- C10: when the candidate scan comes back at the active index itself (no
other item satisfied both strict inequalities), `onHandMove` completes
without touching the registry, schedules no shift or position animation,
and does not fire `onResetSort`. -/
theorem C10_no_swap_move_pure (ctx : DragCtx) (s : GridState)
    (moveX moveY : ℤ) (ai : Nat) (activeItem : Item) (activeOrder : Int)
    (originPosition : Pos) (cd : ℤ)
    (hai : ctx.activeItemIndex = some ai)
    (hdrag : ctx.isDragging = true)
    (hitem : s.items.get? ai = some activeItem)
    (horder : alGet s.orderMap activeItem.key = some activeOrder)
    (hpos : posAt ctx.blockPositions activeOrder = some originPosition)
    (hscan : scanItems ctx s ai (dragPositionOf ctx moveX moveY)
        (withIdx 0 s.items)
        (ai, getDistance ctx (dragPositionOf ctx moveX moveY)
          originPosition) = some (ai, cd)) :
    onHandMove ctx s moveX moveY =
      some { state := s, anims := [], resetSortFired := none } := by
  unfold onHandMove
  rw [hai, hdrag]
  simp only [hitem, horder, hpos, hscan]
  rw [if_pos trivial]

theorem C10_no_swap_move_pure_witness :
    g4ctx.activeItemIndex = some 0 ∧
      onHandMove g4ctx g4state 5 0 =
        some { state := g4state, anims := [], resetSortFired := none } :=
  ⟨rfl, C10_no_swap_move_pure g4ctx g4state 5 0 0 gItem0 0
    { x := 0, y := 0 } 25 rfl rfl rfl (by decide) (by decide) (by decide)⟩

/-- Characterization of the candidate scan fold: either the accumulator
survives untouched and no scanned candidate beat both bounds, or the
result splits the scanned list around the winning candidate, with every
earlier candidate failing even the tie (`≤`) comparison and every later
one failing the strict comparison against the winner's distance. -/
theorem scanItems_char (ctx : DragCtx) (s : GridState) (ai : Nat)
    (dragPos : Pos) :
    ∀ (l : List (Nat × Item)) (c₀ : Nat) (d₀ : ℤ) (ci : Nat) (cd : ℤ),
      scanItems ctx s ai dragPos l (c₀, d₀) = some (ci, cd) →
      (ci = c₀ ∧ cd = d₀ ∧
        ∀ p ∈ l, p.2.disabledReSorted = false → p.1 ≠ ai →
          ∀ d, itemDist ctx s dragPos p.2 = some d →
            ¬ (d < d₀ ∧ d < blockWidthSq ctx)) ∨
      (∃ l₁ item l₂, l = l₁ ++ (ci, item) :: l₂ ∧
        item.disabledReSorted = false ∧ ci ≠ ai ∧
        itemDist ctx s dragPos item = some cd ∧
        cd < d₀ ∧ cd < blockWidthSq ctx ∧
        (∀ p ∈ l₁, p.2.disabledReSorted = false → p.1 ≠ ai →
          ∀ d, itemDist ctx s dragPos p.2 = some d →
            ¬ (d ≤ cd ∧ d < blockWidthSq ctx)) ∧
        (∀ p ∈ l₂, p.2.disabledReSorted = false → p.1 ≠ ai →
          ∀ d, itemDist ctx s dragPos p.2 = some d →
            ¬ (d < cd ∧ d < blockWidthSq ctx))) := by
  intro l
  induction l with
  | nil =>
    intro c₀ d₀ ci cd h
    simp only [scanItems, Option.some.injEq, Prod.mk.injEq] at h
    left
    refine ⟨h.1.symm, h.2.symm, ?_⟩
    intro p hp
    exact absurd hp (List.not_mem_nil p)
  | cons q rest ih =>
    intro c₀ d₀ ci cd h
    obtain ⟨index, item⟩ := q
    by_cases hdis : item.disabledReSorted
    · rw [scanItems, if_pos hdis] at h
      rcases ih c₀ d₀ ci cd h with ⟨h1, h2, hno⟩ |
        ⟨l₁, it, l₂, heq, hit, hcia, hdist, hlt, hbw, htie, hno⟩
      · left
        refine ⟨h1, h2, ?_⟩
        intro p hp hpd hpa d hd
        rcases List.mem_cons.1 hp with h3 | h3
        · rw [h3] at hpd
          simp [hdis] at hpd
        · exact hno p h3 hpd hpa d hd
      · right
        refine ⟨(index, item) :: l₁, it, l₂, by rw [List.cons_append, heq],
          hit, hcia, hdist, hlt, hbw, ?_, hno⟩
        intro p hp hpd hpa d hd
        rcases List.mem_cons.1 hp with h3 | h3
        · rw [h3] at hpd
          simp [hdis] at hpd
        · exact htie p h3 hpd hpa d hd
    · rw [scanItems, if_neg hdis] at h
      by_cases hidx : index ≠ ai
      · rw [if_pos hidx] at h
        cases hid : itemDist ctx s dragPos item with
        | none =>
          rw [hid] at h
          exact absurd h (by simp)
        | some d =>
          rw [hid] at h
          have h' : (if d < d₀ ∧ d < blockWidthSq ctx then
                scanItems ctx s ai dragPos rest (index, d)
              else scanItems ctx s ai dragPos rest (c₀, d₀)) =
              some (ci, cd) := h
          have hdis' : item.disabledReSorted = false := by
            revert hdis
            cases item.disabledReSorted <;> simp
          by_cases hcond : d < d₀ ∧ d < blockWidthSq ctx
          · rw [if_pos hcond] at h'
            rcases ih index d ci cd h' with ⟨h1, h2, hno⟩ |
              ⟨l₁, it, l₂, heq, hit, hcia, hdist, hlt, hbw, htie, hno⟩
            · right
              refine ⟨[], item, rest, ?_, hdis', ?_, ?_, ?_, ?_, ?_, ?_⟩
              · rw [List.nil_append, h1]
              · rw [h1]
                exact hidx
              · rw [h2]
                exact hid
              · rw [h2]
                exact hcond.1
              · rw [h2]
                exact hcond.2
              · intro p hp
                exact absurd hp (List.not_mem_nil p)
              · intro p hp hpd hpa d' hd'
                rw [h2]
                exact hno p hp hpd hpa d' hd'
            · right
              refine ⟨(index, item) :: l₁, it, l₂,
                by rw [List.cons_append, heq], hit, hcia, hdist,
                lt_trans hlt hcond.1, hbw, ?_, hno⟩
              intro p hp hpd hpa d' hd'
              rcases List.mem_cons.1 hp with h3 | h3
              · rw [h3] at hd'
                have hd'' : itemDist ctx s dragPos item = some d' := hd'
                rw [hid] at hd''
                injection hd'' with hd2
                rintro ⟨hle, _⟩
                rw [← hd2] at hle
                exact absurd hlt (not_lt.2 hle)
              · exact htie p h3 hpd hpa d' hd'
          · rw [if_neg hcond] at h'
            rcases ih c₀ d₀ ci cd h' with ⟨h1, h2, hno⟩ |
              ⟨l₁, it, l₂, heq, hit, hcia, hdist, hlt, hbw, htie, hno⟩
            · left
              refine ⟨h1, h2, ?_⟩
              intro p hp hpd hpa d' hd'
              rcases List.mem_cons.1 hp with h3 | h3
              · rw [h3] at hd'
                have hd'' : itemDist ctx s dragPos item = some d' := hd'
                rw [hid] at hd''
                injection hd'' with hd2
                rw [← hd2]
                exact hcond
              · exact hno p h3 hpd hpa d' hd'
            · right
              refine ⟨(index, item) :: l₁, it, l₂,
                by rw [List.cons_append, heq], hit, hcia, hdist, hlt, hbw,
                ?_, hno⟩
              intro p hp hpd hpa d' hd'
              rcases List.mem_cons.1 hp with h3 | h3
              · rw [h3] at hd'
                have hd'' : itemDist ctx s dragPos item = some d' := hd'
                rw [hid] at hd''
                injection hd'' with hd2
                rintro ⟨hle, hb⟩
                rw [← hd2] at hle hb
                exact hcond ⟨lt_of_le_of_lt hle hlt, hb⟩
              · exact htie p h3 hpd hpa d' hd'
      · rw [if_neg hidx] at h
        push_neg at hidx
        rcases ih c₀ d₀ ci cd h with ⟨h1, h2, hno⟩ |
          ⟨l₁, it, l₂, heq, hit, hcia, hdist, hlt, hbw, htie, hno⟩
        · left
          refine ⟨h1, h2, ?_⟩
          intro p hp hpd hpa d' hd'
          rcases List.mem_cons.1 hp with h3 | h3
          · rw [h3] at hpa
            exact absurd hidx hpa
          · exact hno p h3 hpd hpa d' hd'
        · right
          refine ⟨(index, item) :: l₁, it, l₂,
            by rw [List.cons_append, heq], hit, hcia, hdist, hlt, hbw,
            ?_, hno⟩
          intro p hp hpd hpa d' hd'
          rcases List.mem_cons.1 hp with h3 | h3
          · rw [h3] at hpa
            exact absurd hidx hpa
          · exact htie p h3 hpd hpa d' hd'

/-- C3: during a drag, the swap target chosen by the move-event scan,
started at the active item's own index with the running minimum
initialized to the (squared) distance from the drag position to the
active item's origin, is characterized exactly as the claim states:
either no candidate (non-active, non-`disabledReSorted`) satisfies both
strict inequalities and no swap occurs (the index stays the active one),
or the winner is a candidate strictly under both bounds that no earlier
candidate ties (first encountered wins) and no later candidate beats. -/
theorem C3_swap_target_selection (ctx : DragCtx) (s : GridState) (ai : Nat)
    (moveX moveY : ℤ) (activeItem : Item) (activeOrder : Int)
    (originPosition : Pos) (dragPos : Pos) (base : ℤ) (ci : Nat) (cd : ℤ)
    (hai : ctx.activeItemIndex = some ai)
    (hdrag : ctx.isDragging = true)
    (hitem : s.items.get? ai = some activeItem)
    (horder : alGet s.orderMap activeItem.key = some activeOrder)
    (hpos : posAt ctx.blockPositions activeOrder = some originPosition)
    (hdp : dragPos = dragPositionOf ctx moveX moveY)
    (hbase : base = getDistance ctx dragPos originPosition)
    (hscan : scanItems ctx s ai dragPos (withIdx 0 s.items) (ai, base) =
      some (ci, cd)) :
    (ci = ai ∧ cd = base ∧
      ∀ p ∈ withIdx 0 s.items, p.2.disabledReSorted = false → p.1 ≠ ai →
        ∀ d, itemDist ctx s dragPos p.2 = some d →
          ¬ (d < base ∧ d < blockWidthSq ctx)) ∨
    (ci ≠ ai ∧
      (∃ item, (ci, item) ∈ withIdx 0 s.items ∧
        item.disabledReSorted = false ∧
        itemDist ctx s dragPos item = some cd) ∧
      cd < base ∧ cd < blockWidthSq ctx ∧
      ∀ p ∈ withIdx 0 s.items, p.2.disabledReSorted = false → p.1 ≠ ai →
        ∀ d, itemDist ctx s dragPos p.2 = some d → d < blockWidthSq ctx →
          cd ≤ d ∧ (p.1 < ci → cd < d)) := by
  rcases scanItems_char ctx s ai dragPos (withIdx 0 s.items) ai base ci cd
      hscan with ⟨h1, h2, hno⟩ |
    ⟨l₁, item, l₂, heq, hit, hcia, hdist, hlt, hbw, htie, hno⟩
  · left
    exact ⟨h1, h2, hno⟩
  · right
    have hsplit := withIdx_split_lt heq
    refine ⟨hcia, ⟨item, ?_, hit, hdist⟩, hlt, hbw, ?_⟩
    · rw [heq]
      exact List.mem_append_right _ (List.mem_cons_self _ _)
    · intro p hp hpd hpa d hd hdbw
      rw [heq] at hp
      rcases List.mem_append.1 hp with hp1 | hp2
      · have hne := htie p hp1 hpd hpa d hd
        have hcd : cd < d := by
          by_contra hcon
          push_neg at hcon
          exact hne ⟨hcon, hdbw⟩
        exact ⟨le_of_lt hcd, fun _ => hcd⟩
      · rcases List.mem_cons.1 hp2 with hp3 | hp3
        · rw [hp3] at hd
          have hd'' : itemDist ctx s dragPos item = some d := hd
          rw [hdist] at hd''
          injection hd'' with hd2
          refine ⟨le_of_eq hd2, ?_⟩
          intro hlt'
          have : ci < ci := by
            have h4 : p.1 = ci := by rw [hp3]
            rw [h4] at hlt'
            exact hlt'
          exact absurd this (lt_irrefl ci)
        · have hgt := hsplit.2 p hp3
          have hne := hno p hp3 hpd hpa d hd
          have hcd : cd ≤ d := by
            by_contra hcon
            push_neg at hcon
            exact hne ⟨hcon, hdbw⟩
          refine ⟨hcd, ?_⟩
          intro hlt'
          exact absurd hgt (not_lt.2 (le_of_lt hlt'))

theorem C3_swap_target_selection_witness :
    scanItems g4ctx g4state 0 (dragPositionOf g4ctx 100 100)
        (withIdx 0 g4state.items)
        (0, getDistance g4ctx (dragPositionOf g4ctx 100 100)
          { x := 0, y := 0 }) = some (3, 0) ∧ (3 : Nat) ≠ 0 :=
  ⟨by decide, by
    rcases C3_swap_target_selection g4ctx g4state 0 100 100 gItem0 0
        { x := 0, y := 0 } (dragPositionOf g4ctx 100 100)
        (getDistance g4ctx (dragPositionOf g4ctx 100 100) { x := 0, y := 0 })
        3 0 rfl rfl rfl (by decide) (by decide) rfl rfl (by decide) with
      h | h
    · exact absurd h.1 (by decide)
    · exact h.1⟩

/-! ### Shift loop lemmas -/

theorem mem_rangeM {m : Int} {n : Nat} : m ∈ rangeM n ↔ 0 ≤ m ∧ m < n := by
  unfold rangeM
  simp only [Multiset.mem_coe, List.mem_map, List.mem_range]
  constructor
  · rintro ⟨i, hi, rfl⟩
    omega
  · rintro ⟨h0, hn⟩
    exact ⟨m.toNat, by omega, by omega⟩

theorem rangeM_nodup (n : Nat) : (rangeM n).Nodup := by
  unfold rangeM
  rw [Multiset.coe_nodup]
  exact (List.nodup_range n).map (fun a b h => by exact_mod_cast h)

theorem findKeyByOrder_mem {m : List (String × Int)} {o : Int} {k : String}
    (h : findKeyByOrder m o = some k) : (k, o) ∈ m := by
  unfold findKeyByOrder at h
  cases hf : m.find? (fun p => decide (p.2 = o)) with
  | none =>
    rw [hf] at h
    simp at h
  | some p =>
    rw [hf] at h
    have h1 : p.1 = k := by simpa using h
    have hp : p.2 = o := by simpa using List.find?_some hf
    have hm := List.mem_of_find?_eq_some hf
    have hpk : p = (k, o) := by
      obtain ⟨p1, p2⟩ := p
      simp only at h1 hp
      rw [h1, hp]
    rw [← hpk]
    exact hm

theorem alGet_inj_of_snd_nodup {m : List (String × Int)}
    (hnd : (m.map Prod.snd).Nodup) {k1 k2 : String} {v : Int}
    (h1 : alGet m k1 = some v) (h2 : alGet m k2 = some v) : k1 = k2 := by
  have e1 := alGet_mem h1
  have e2 := alGet_mem h2
  have h12 := List.inj_on_of_nodup_map hnd e1 e2 rfl
  exact congrArg Prod.fst h12

theorem isDisabledIn_congr {s s₀ : GridState} (h : s.itemMap = s₀.itemMap)
    (k : String) : isDisabledIn s k = isDisabledIn s₀ k := by
  unfold isDisabledIn alGet
  rw [h]

/-- Invariant-carrying specification of the decreasing shift loop of
`resetBlockPositionByOrder`, relative to the loop-entry state `s₀`, the
dragged item's order `a` and the target order `t`.  When the loop
completes, the key sets and the item registries are untouched, the order
multiset has become `{0..n-1}` minus a slot `t + c` (the `c` trailing
obstacles, all `disabledReSorted` in `s₀`) plus a duplicate of `a`, and
every key whose order changed is non-`disabledReSorted`, moved up from
`o1` to `o2` with every strictly intermediate slot held in `s₀` by a
`disabledReSorted` key. -/
theorem resetLoopDec_spec (s₀ : GridState) (n : Nat) (a t : Int)
    (hnd0 : (s₀.orderMap.map Prod.fst).Nodup) :
    ∀ (steps : Nat) (i : Int) (cnt : Nat) (s : GridState)
      (anims : List String) (s' : GridState) (anims' : List String),
      resetLoopDec steps i cnt s anims = some (s', anims') →
      s.orderMap.map Prod.fst = s₀.orderMap.map Prod.fst →
      s.itemMap = s₀.itemMap →
      s.items = s₀.items →
      ordersM s = a ::ₘ (rangeM n).erase (i + (cnt : Int) + 1) →
      (steps : Int) = i + 1 - t →
      0 ≤ t →
      i + (cnt : Int) + 1 ≤ a →
      a < (n : Int) →
      (∀ k o2, alGet s.orderMap k ≠ alGet s₀.orderMap k →
        alGet s.orderMap k = some o2 →
        isDisabledIn s₀ k = false ∧
        ∃ o1, alGet s₀.orderMap k = some o1 ∧ t ≤ o1 ∧ o1 < o2 ∧
          i + (cnt : Int) + 1 ≤ o2 ∧ o2 ≤ a ∧
          ∀ m, o1 < m → m < o2 →
            ∃ kd, alGet s₀.orderMap kd = some m ∧
              isDisabledIn s₀ kd = true) →
      (∀ m : Int, i < m → m < i + (cnt : Int) + 1 →
        ∃ kd, alGet s₀.orderMap kd = some m ∧
          isDisabledIn s₀ kd = true) →
      s'.orderMap.map Prod.fst = s₀.orderMap.map Prod.fst ∧
      s'.itemMap = s₀.itemMap ∧ s'.items = s₀.items ∧
      (∃ c : Nat, ordersM s' = a ::ₘ (rangeM n).erase (t + (c : Int)) ∧
        t + (c : Int) ≤ a ∧
        ∀ m : Int, t ≤ m → m < t + (c : Int) →
          ∃ kd, alGet s₀.orderMap kd = some m ∧
            isDisabledIn s₀ kd = true) ∧
      (∀ k o2, alGet s'.orderMap k ≠ alGet s₀.orderMap k →
        alGet s'.orderMap k = some o2 →
        isDisabledIn s₀ k = false ∧
        ∃ o1, alGet s₀.orderMap k = some o1 ∧ t ≤ o1 ∧ o1 < o2 ∧ o2 ≤ a ∧
          ∀ m, o1 < m → m < o2 →
            ∃ kd, alGet s₀.orderMap kd = some m ∧
              isDisabledIn s₀ kd = true) := by
  intro steps
  induction steps with
  | zero =>
    intro i cnt s anims s' anims' hrun h1 h2 h3 h4 h5 h6 h7 h8 h9 h10
    rw [resetLoopDec] at hrun
    injection hrun with hrun
    injection hrun with hs hanims
    subst hs
    have hit : i = t - 1 := by omega
    refine ⟨h1, h2, h3, ⟨cnt, ?_, by omega, ?_⟩, ?_⟩
    · rw [h4]
      have : i + (cnt : Int) + 1 = t + (cnt : Int) := by omega
      rw [this]
    · intro m hm1 hm2
      exact h10 m (by omega) (by omega)
    · intro k o2 hch hget
      rcases h9 k o2 hch hget with ⟨hd0, o1, g1, g2, g3, g4, g5, g6⟩
      exact ⟨hd0, o1, g1, g2, g3, g5, g6⟩
  | succ st ih =>
    intro i cnt s anims s' anims' hrun h1 h2 h3 h4 h5 h6 h7 h8 h9 h10
    rw [resetLoopDec] at hrun
    cases hfk : findKeyByOrder s.orderMap i with
    | none =>
      rw [hfk] at hrun
      simp at hrun
    | some k =>
      rw [hfk] at hrun
      have hndS : (s.orderMap.map Prod.fst).Nodup := by
        rw [h1]
        exact hnd0
      have hgetk : alGet s.orderMap k = some i :=
        mem_alGet hndS (findKeyByOrder_mem hfk)
      have hti : t ≤ i := by omega
      have hunch : alGet s₀.orderMap k = some i := by
        by_cases hch : alGet s.orderMap k = alGet s₀.orderMap k
        · rw [← hch]
          exact hgetk
        · exfalso
          rcases h9 k i hch hgetk with ⟨_, o1, _, _, _, g4, _, _⟩
          omega
      have hrun' : (if isDisabledIn s k = true then
          resetLoopDec st (i - 1) (cnt + 1) s anims
        else
          resetLoopDec st (i - 1) 0
            { s with orderMap := alAdjust s.orderMap k ((cnt : Int) + 1) }
            (anims ++ [k])) = some (s', anims') := hrun
      by_cases hd : isDisabledIn s k = true
      · rw [if_pos hd] at hrun'
        have hd0 : isDisabledIn s₀ k = true := by
          rw [← isDisabledIn_congr h2 k]
          exact hd
        refine ih (i - 1) (cnt + 1) s anims s' anims' hrun' h1 h2 h3 ?_
          (by omega) h6 (by push_cast; omega) h8 ?_ ?_
        · have heq : (i - 1) + ((cnt + 1 : Nat) : Int) + 1 =
              i + (cnt : Int) + 1 := by
            push_cast
            ring
          rw [heq]
          exact h4
        · intro k' o2 hch hget
          rcases h9 k' o2 hch hget with ⟨hdd, o1, g1, g2, g3, g4, g5, g6⟩
          exact ⟨hdd, o1, g1, g2, g3, by push_cast; omega, g5, g6⟩
        · intro m hm1 hm2
          push_cast at hm2
          by_cases hmi : m = i
          · exact ⟨k, hmi ▸ hunch, hd0⟩
          · exact h10 m (by omega) (by omega)
      · rw [if_neg hd] at hrun'
        have hd0 : isDisabledIn s₀ k = false := by
          rw [← isDisabledIn_congr h2 k]
          revert hd
          cases isDisabledIn s k <;> simp
        have hordM : ordersM { s with
              orderMap := alAdjust s.orderMap k ((cnt : Int) + 1) } =
            (i + ((cnt : Int) + 1)) ::ₘ (ordersM s).erase i := by
          unfold ordersM
          exact sndM_alAdjust hndS hgetk _
        have hholemem : i + (cnt : Int) + 1 ∈ (rangeM n).erase i := by
          rw [Multiset.mem_erase_of_ne (by omega)]
          rw [mem_rangeM]
          omega
        have hmm2 : ordersM { s with
              orderMap := alAdjust s.orderMap k ((cnt : Int) + 1) } =
            a ::ₘ (rangeM n).erase i := by
          rw [hordM, h4]
          rw [Multiset.erase_cons_tail _ (show a ≠ i by omega)]
          rw [Multiset.erase_comm]
          rw [Multiset.cons_swap]
          rw [show i + ((cnt : Int) + 1) = i + (cnt : Int) + 1 from by ring]
          rw [Multiset.cons_erase hholemem]
        refine ih (i - 1) 0
          { s with orderMap := alAdjust s.orderMap k ((cnt : Int) + 1) }
          (anims ++ [k]) s' anims' hrun' ?_ h2 h3 ?_ (by omega) h6
          (by push_cast; omega) h8 ?_ ?_
        · show (alAdjust s.orderMap k ((cnt : Int) + 1)).map Prod.fst =
            s₀.orderMap.map Prod.fst
          rw [alAdjust_map_fst]
          exact h1
        · have heq : (i - 1) + ((0 : Nat) : Int) + 1 = i := by
            push_cast
            ring
          rw [heq]
          exact hmm2
        · intro k' o2 hch hget
          by_cases hkk : k' = k
          · subst hkk
            have hget2 : alGet (alAdjust s.orderMap k' ((cnt : Int) + 1))
                k' = some (i + ((cnt : Int) + 1)) :=
              alGet_alAdjust_self hgetk _
            have ho2 : o2 = i + ((cnt : Int) + 1) := by
              have := hget2.symm.trans hget
              injection this with h
              exact h.symm
            refine ⟨hd0, i, hunch, hti, by omega, by push_cast; omega,
              by omega, ?_⟩
            intro m hm1 hm2
            rw [ho2] at hm2
            exact h10 m hm1 (by omega)
          · have hget' : alGet (alAdjust s.orderMap k ((cnt : Int) + 1))
                k' = alGet s.orderMap k' := alGet_alAdjust_ne _ _ _ hkk
            have hch' : alGet s.orderMap k' ≠ alGet s₀.orderMap k' := by
              rw [← hget']
              exact hch
            rcases h9 k' o2 hch' (hget' ▸ hget) with
              ⟨hdd, o1, g1, g2, g3, g4, g5, g6⟩
            exact ⟨hdd, o1, g1, g2, g3, by push_cast; omega, g5, g6⟩
        · intro m hm1 hm2
          push_cast at hm2
          omega

/-- Mirror of `resetLoopDec_spec` for the increasing shift loop (drag
target above the active order): shifted keys move down, obstacles keep
their slots, and the vacated hole travels up to `t - c` for `c` trailing
obstacles. -/
theorem resetLoopInc_spec (s₀ : GridState) (n : Nat) (a t : Int)
    (hnd0 : (s₀.orderMap.map Prod.fst).Nodup) :
    ∀ (steps : Nat) (i : Int) (cnt : Nat) (s : GridState)
      (anims : List String) (s' : GridState) (anims' : List String),
      resetLoopInc steps i cnt s anims = some (s', anims') →
      s.orderMap.map Prod.fst = s₀.orderMap.map Prod.fst →
      s.itemMap = s₀.itemMap →
      s.items = s₀.items →
      ordersM s = a ::ₘ (rangeM n).erase (i - (cnt : Int) - 1) →
      (steps : Int) = t + 1 - i →
      0 ≤ a →
      a ≤ i - (cnt : Int) - 1 →
      t < (n : Int) →
      (∀ k o2, alGet s.orderMap k ≠ alGet s₀.orderMap k →
        alGet s.orderMap k = some o2 →
        isDisabledIn s₀ k = false ∧
        ∃ o1, alGet s₀.orderMap k = some o1 ∧ o1 ≤ t ∧ o2 < o1 ∧
          a ≤ o2 ∧ o2 ≤ i - (cnt : Int) - 1 ∧
          ∀ m, o2 < m → m < o1 →
            ∃ kd, alGet s₀.orderMap kd = some m ∧
              isDisabledIn s₀ kd = true) →
      (∀ m : Int, i - (cnt : Int) - 1 < m → m < i →
        ∃ kd, alGet s₀.orderMap kd = some m ∧
          isDisabledIn s₀ kd = true) →
      s'.orderMap.map Prod.fst = s₀.orderMap.map Prod.fst ∧
      s'.itemMap = s₀.itemMap ∧ s'.items = s₀.items ∧
      (∃ c : Nat, ordersM s' = a ::ₘ (rangeM n).erase (t - (c : Int)) ∧
        a ≤ t - (c : Int) ∧
        ∀ m : Int, t - (c : Int) < m → m ≤ t →
          ∃ kd, alGet s₀.orderMap kd = some m ∧
            isDisabledIn s₀ kd = true) ∧
      (∀ k o2, alGet s'.orderMap k ≠ alGet s₀.orderMap k →
        alGet s'.orderMap k = some o2 →
        isDisabledIn s₀ k = false ∧
        ∃ o1, alGet s₀.orderMap k = some o1 ∧ o1 ≤ t ∧ o2 < o1 ∧ a ≤ o2 ∧
          ∀ m, o2 < m → m < o1 →
            ∃ kd, alGet s₀.orderMap kd = some m ∧
              isDisabledIn s₀ kd = true) := by
  intro steps
  induction steps with
  | zero =>
    intro i cnt s anims s' anims' hrun h1 h2 h3 h4 h5 h6 h7 h8 h9 h10
    rw [resetLoopInc] at hrun
    injection hrun with hrun
    injection hrun with hs hanims
    subst hs
    have hit : i = t + 1 := by omega
    refine ⟨h1, h2, h3, ⟨cnt, ?_, by omega, ?_⟩, ?_⟩
    · rw [h4]
      have : i - (cnt : Int) - 1 = t - (cnt : Int) := by omega
      rw [this]
    · intro m hm1 hm2
      exact h10 m (by omega) (by omega)
    · intro k o2 hch hget
      rcases h9 k o2 hch hget with ⟨hd0, o1, g1, g2, g3, g4, g5, g6⟩
      exact ⟨hd0, o1, g1, g2, g3, g4, g6⟩
  | succ st ih =>
    intro i cnt s anims s' anims' hrun h1 h2 h3 h4 h5 h6 h7 h8 h9 h10
    rw [resetLoopInc] at hrun
    cases hfk : findKeyByOrder s.orderMap i with
    | none =>
      rw [hfk] at hrun
      simp at hrun
    | some k =>
      rw [hfk] at hrun
      have hndS : (s.orderMap.map Prod.fst).Nodup := by
        rw [h1]
        exact hnd0
      have hgetk : alGet s.orderMap k = some i :=
        mem_alGet hndS (findKeyByOrder_mem hfk)
      have hti : i ≤ t := by omega
      have hunch : alGet s₀.orderMap k = some i := by
        by_cases hch : alGet s.orderMap k = alGet s₀.orderMap k
        · rw [← hch]
          exact hgetk
        · exfalso
          rcases h9 k i hch hgetk with ⟨_, o1, _, _, _, _, g5, _⟩
          omega
      have hrun' : (if isDisabledIn s k = true then
          resetLoopInc st (i + 1) (cnt + 1) s anims
        else
          resetLoopInc st (i + 1) 0
            { s with orderMap := alAdjust s.orderMap k (-((cnt : Int) + 1)) }
            (anims ++ [k])) = some (s', anims') := hrun
      by_cases hd : isDisabledIn s k = true
      · rw [if_pos hd] at hrun'
        have hd0 : isDisabledIn s₀ k = true := by
          rw [← isDisabledIn_congr h2 k]
          exact hd
        refine ih (i + 1) (cnt + 1) s anims s' anims' hrun' h1 h2 h3 ?_
          (by omega) h6 (by push_cast; omega) h8 ?_ ?_
        · have heq : (i + 1) - ((cnt + 1 : Nat) : Int) - 1 =
              i - (cnt : Int) - 1 := by
            push_cast
            ring
          rw [heq]
          exact h4
        · intro k' o2 hch hget
          rcases h9 k' o2 hch hget with ⟨hdd, o1, g1, g2, g3, g4, g5, g6⟩
          exact ⟨hdd, o1, g1, g2, g3, g4, by push_cast; omega, g6⟩
        · intro m hm1 hm2
          push_cast at hm1
          by_cases hmi : m = i
          · exact ⟨k, hmi ▸ hunch, hd0⟩
          · exact h10 m (by omega) (by omega)
      · rw [if_neg hd] at hrun'
        have hd0 : isDisabledIn s₀ k = false := by
          rw [← isDisabledIn_congr h2 k]
          revert hd
          cases isDisabledIn s k <;> simp
        have hordM : ordersM { s with
              orderMap := alAdjust s.orderMap k (-((cnt : Int) + 1)) } =
            (i + -((cnt : Int) + 1)) ::ₘ (ordersM s).erase i := by
          unfold ordersM
          exact sndM_alAdjust hndS hgetk _
        have hholemem : i - (cnt : Int) - 1 ∈ (rangeM n).erase i := by
          rw [Multiset.mem_erase_of_ne (by omega)]
          rw [mem_rangeM]
          omega
        have hmm2 : ordersM { s with
              orderMap := alAdjust s.orderMap k (-((cnt : Int) + 1)) } =
            a ::ₘ (rangeM n).erase i := by
          rw [hordM, h4]
          rw [Multiset.erase_cons_tail _ (show a ≠ i by omega)]
          rw [Multiset.erase_comm]
          rw [Multiset.cons_swap]
          rw [show i + -((cnt : Int) + 1) = i - (cnt : Int) - 1 from by ring]
          rw [Multiset.cons_erase hholemem]
        refine ih (i + 1) 0
          { s with orderMap := alAdjust s.orderMap k (-((cnt : Int) + 1)) }
          (anims ++ [k]) s' anims' hrun' ?_ h2 h3 ?_ (by omega) h6
          (by push_cast; omega) h8 ?_ ?_
        · show (alAdjust s.orderMap k (-((cnt : Int) + 1))).map Prod.fst =
            s₀.orderMap.map Prod.fst
          rw [alAdjust_map_fst]
          exact h1
        · have heq : (i + 1) - ((0 : Nat) : Int) - 1 = i := by
            push_cast
            ring
          rw [heq]
          exact hmm2
        · intro k' o2 hch hget
          by_cases hkk : k' = k
          · subst hkk
            have hget2 : alGet (alAdjust s.orderMap k' (-((cnt : Int) + 1)))
                k' = some (i + -((cnt : Int) + 1)) :=
              alGet_alAdjust_self hgetk _
            have ho2 : o2 = i + -((cnt : Int) + 1) := by
              have := hget2.symm.trans hget
              injection this with h
              exact h.symm
            refine ⟨hd0, i, hunch, hti, by omega, by omega,
              by push_cast; omega, ?_⟩
            intro m hm1 hm2
            rw [ho2] at hm1
            exact h10 m (by omega) hm2
          · have hget' : alGet (alAdjust s.orderMap k (-((cnt : Int) + 1)))
                k' = alGet s.orderMap k' := alGet_alAdjust_ne _ _ _ hkk
            have hch' : alGet s.orderMap k' ≠ alGet s₀.orderMap k' := by
              rw [← hget']
              exact hch
            rcases h9 k' o2 hch' (hget' ▸ hget) with
              ⟨hdd, o1, g1, g2, g3, g4, g5, g6⟩
            exact ⟨hdd, o1, g1, g2, g3, g4, by push_cast; omega, g6⟩
        · intro m hm1 hm2
          push_cast at hm1
          omega

theorem keysOf_nodup_of_WF {s : GridState} (hWF : WFcore s) :
    (keysOf s.items).Nodup :=
  hWF.2.2.1.nodup hWF.1

theorem snd_nodup_of_rangeM {s : GridState} {n : Nat}
    (hperm : ordersM s = rangeM n) : (s.orderMap.map Prod.snd).Nodup := by
  have := rangeM_nodup n
  rw [← hperm] at this
  unfold ordersM at this
  rwa [Multiset.coe_nodup] at this

theorem mem_ordersM_of_alGet {s : GridState} {k : String} {v : Int}
    (h : alGet s.orderMap k = some v) : v ∈ ordersM s := by
  unfold ordersM
  rw [Multiset.mem_coe]
  exact List.mem_map.2 ⟨(k, v), alGet_mem h, rfl⟩

theorem order_bounds {s : GridState} {n : Nat} {k : String} {v : Int}
    (hperm : ordersM s = rangeM n) (h : alGet s.orderMap k = some v) :
    0 ≤ v ∧ v < (n : Int) := by
  have := mem_ordersM_of_alGet h
  rw [hperm, mem_rangeM] at this
  exact this

/-- Combined effect of `resetBlockPositionByOrder s a t` on a registry
whose orders are exactly `{0..n-1}` and whose slot `t` is not held by a
`disabledReSorted` key: key sets, `itemMap` and `items` untouched, the
order multiset becomes `{0..n-1}` minus slot `t` plus a duplicate of `a`
(the dragged item's entry still holds `a`), and every changed key is
non-`disabledReSorted`, did not hold `a`, and jumped across slots that
are all held by `disabledReSorted` keys. -/
theorem resetBlockPositionByOrder_spec (s : GridState) (n : Nat)
    (a t : Int) (r : GridState × List String)
    (hnd : (s.orderMap.map Prod.fst).Nodup)
    (hperm : ordersM s = rangeM n)
    (ha : 0 ≤ a) (han : a < (n : Int)) (ht : 0 ≤ t) (htn : t < (n : Int))
    (htarget : ∀ k, alGet s.orderMap k = some t → isDisabledIn s k = false)
    (hrun : resetBlockPositionByOrder s a t = some r) :
    r.1.orderMap.map Prod.fst = s.orderMap.map Prod.fst ∧
    r.1.itemMap = s.itemMap ∧ r.1.items = s.items ∧
    ordersM r.1 = a ::ₘ (rangeM n).erase t ∧
    (∀ k o2, alGet r.1.orderMap k ≠ alGet s.orderMap k →
      alGet r.1.orderMap k = some o2 →
      isDisabledIn s k = false ∧
      ∃ o1, alGet s.orderMap k = some o1 ∧ o1 ≠ o2 ∧ o1 ≠ a ∧
        ∀ m, min o1 o2 < m → m < max o1 o2 →
          ∃ kd, alGet s.orderMap kd = some m ∧
            isDisabledIn s kd = true) := by
  have hamem : a ∈ rangeM n := mem_rangeM.2 ⟨ha, han⟩
  rw [resetBlockPositionByOrder] at hrun
  by_cases hat : a > t
  · rw [if_pos hat] at hrun
    have hrun2 : resetLoopDec (a - t).toNat (a - 1) 0 s [] =
        some (r.1, r.2) := hrun
    have hspec := resetLoopDec_spec s n a t hnd (a - t).toNat (a - 1) 0 s
      [] r.1 r.2 hrun2 rfl rfl rfl
      (by
        have he : (a - 1) + ((0 : Nat) : Int) + 1 = a := by
          push_cast
          ring
        rw [he, hperm]
        exact (Multiset.cons_erase hamem).symm)
      (by omega) ht (by push_cast; omega) han
      (by
        intro k o2 hch
        exact absurd rfl hch)
      (by
        intro m hm1 hm2
        exfalso
        push_cast at hm2
        omega)
    obtain ⟨g1, g2, g3, ⟨c, hms, hle, hobs⟩, gch⟩ := hspec
    have hc0 : c = 0 := by
      by_contra hc
      rcases hobs t (le_refl t) (by omega) with ⟨kd, hkd, hkddis⟩
      rw [htarget kd hkd] at hkddis
      exact Bool.false_ne_true hkddis
    subst hc0
    refine ⟨g1, g2, g3, ?_, ?_⟩
    · rw [hms]
      norm_num
    · intro k o2 hch hget
      rcases gch k o2 hch hget with ⟨hdd, o1, p1, p2, p3, p4, p5⟩
      refine ⟨hdd, o1, p1, by omega, by omega, ?_⟩
      intro m hm1 hm2
      exact p5 m (by omega) (by omega)
  · rw [if_neg hat] at hrun
    have hrun2 : resetLoopInc (t - a).toNat (a + 1) 0 s [] =
        some (r.1, r.2) := hrun
    have hspec := resetLoopInc_spec s n a t hnd (t - a).toNat (a + 1) 0 s
      [] r.1 r.2 hrun2 rfl rfl rfl
      (by
        have he : (a + 1) - ((0 : Nat) : Int) - 1 = a := by
          push_cast
          ring
        rw [he, hperm]
        exact (Multiset.cons_erase hamem).symm)
      (by omega) ha (by push_cast; omega) htn
      (by
        intro k o2 hch
        exact absurd rfl hch)
      (by
        intro m hm1 hm2
        exfalso
        push_cast at hm1
        omega)
    obtain ⟨g1, g2, g3, ⟨c, hms, hle, hobs⟩, gch⟩ := hspec
    have hc0 : c = 0 := by
      by_contra hc
      rcases hobs t (by omega) (le_refl t) with ⟨kd, hkd, hkddis⟩
      rw [htarget kd hkd] at hkddis
      exact Bool.false_ne_true hkddis
    subst hc0
    refine ⟨g1, g2, g3, ?_, ?_⟩
    · rw [hms]
      norm_num
    · intro k o2 hch hget
      rcases gch k o2 hch hget with ⟨hdd, o1, p1, p2, p3, p4, p5⟩
      refine ⟨hdd, o1, p1, by omega, by omega, ?_⟩
      intro m hm1 hm2
      exact p5 m (by omega) (by omega)

/-- Inversion of `onHandMove`: a completed move event is either the
registry-preserving no-op (no active item, not dragging, or the scan kept
the active index), or a swap: the scan returned a different index and the
state is the shift result with the active key's order set to the target
order. -/
theorem onHandMove_inv (ctx : DragCtx) (s : GridState) (moveX moveY : ℤ)
    (out : MoveOut) (hmove : onHandMove ctx s moveX moveY = some out) :
    out = { state := s, anims := [], resetSortFired := none } ∨
    ∃ ai activeItem activeOrder originPosition ci cd closetItem
      closetOrder r,
      ctx.activeItemIndex = some ai ∧
      ctx.isDragging = true ∧
      s.items.get? ai = some activeItem ∧
      alGet s.orderMap activeItem.key = some activeOrder ∧
      posAt ctx.blockPositions activeOrder = some originPosition ∧
      scanItems ctx s ai (dragPositionOf ctx moveX moveY)
        (withIdx 0 s.items)
        (ai, getDistance ctx (dragPositionOf ctx moveX moveY)
          originPosition) = some (ci, cd) ∧
      ai ≠ ci ∧
      s.items.get? ci = some closetItem ∧
      alGet s.orderMap closetItem.key = some closetOrder ∧
      resetBlockPositionByOrder s activeOrder closetOrder = some r ∧
      out.state = { r.1 with
        orderMap := alSet r.1.orderMap activeItem.key closetOrder } := by
  unfold onHandMove at hmove
  split at hmove
  · rename_i ai hAI hDR
    split at hmove
    · injection hmove with h
      exact Or.inl h.symm
    · rename_i activeItem hitem
      split at hmove
      · simp at hmove
      · rename_i activeOrder horder
        split at hmove
        · simp at hmove
        · rename_i originPosition hpos
          split at hmove
          · simp at hmove
          · rename_i ci cd hscan
            split at hmove
            · injection hmove with h
              exact Or.inl h.symm
            · rename_i hne
              split at hmove
              · simp at hmove
              · rename_i closetItem hclitem
                split at hmove
                · simp at hmove
                · rename_i closetOrder hclorder
                  cases hr : resetBlockPositionByOrder s activeOrder
                      closetOrder with
                  | none =>
                    rw [hr] at hmove
                    simp at hmove
                  | some r =>
                    rw [hr] at hmove
                    simp only [Option.map_some'] at hmove
                    injection hmove with h
                    right
                    refine ⟨ai, activeItem, activeOrder, originPosition,
                      ci, cd, closetItem, closetOrder, r, hAI, hDR, hitem,
                      horder, hpos, hscan, hne, hclitem, hclorder, hr, ?_⟩
                    rw [← h]
  · injection hmove with h
    exact Or.inl h.symm

/-- Full effect of a completed move event on the registry: `items` and
`itemMap` untouched, the permutation invariant preserved, and every key
other than the active one whose order changed is non-`disabledReSorted`
and jumped only across slots held by `disabledReSorted` keys. -/
theorem onHandMove_spec (ctx : DragCtx) (s : GridState) (moveX moveY : ℤ)
    (out : MoveOut) (hWF : WFcore s) (hPerm : PermInv s)
    (hmove : onHandMove ctx s moveX moveY = some out) :
    out.state.items = s.items ∧
    out.state.itemMap = s.itemMap ∧
    PermInv out.state ∧
    ∀ activeKey,
      (∃ ai activeItem, ctx.activeItemIndex = some ai ∧
        s.items.get? ai = some activeItem ∧ activeItem.key = activeKey) →
      ∀ k, k ≠ activeKey →
        alGet out.state.orderMap k ≠ alGet s.orderMap k →
        isDisabledIn s k = false ∧
        ∃ o1 o2, alGet s.orderMap k = some o1 ∧
          alGet out.state.orderMap k = some o2 ∧ o1 ≠ o2 ∧
          ∀ m, min o1 o2 < m → m < max o1 o2 →
            ∃ kd, alGet s.orderMap kd = some m ∧
              isDisabledIn s kd = true := by
  rcases onHandMove_inv ctx s moveX moveY out hmove with hout |
    ⟨ai, activeItem, activeOrder, originPosition, ci, cd, closetItem,
      closetOrder, r, h1, h2, h3, h4, h5, h6, h7, h8, h9, h10, h11⟩
  · subst hout
    refine ⟨rfl, rfl, hPerm, ?_⟩
    intro activeKey _ k _ hch
    exact absurd rfl hch
  · have hnd := hWF.1
    have habounds := order_bounds hPerm h4
    have htbounds := order_bounds hPerm h9
    have hclns : closetItem.disabledReSorted = false := by
      rcases scanItems_char ctx s ai (dragPositionOf ctx moveX moveY)
          (withIdx 0 s.items) ai
          (getDistance ctx (dragPositionOf ctx moveX moveY) originPosition)
          ci cd h6 with ⟨hc1, _, _⟩ | ⟨l₁, item, l₂, heq, hit, _, _⟩
      · exact absurd hc1.symm h7
      · have hmem : (ci, item) ∈ withIdx 0 s.items := by
          rw [heq]
          exact List.mem_append_right _ (List.mem_cons_self _ _)
        have hget := (withIdx_mem_get hmem).2
        simp only [Nat.sub_zero] at hget
        rw [h8] at hget
        injection hget with hget
        rw [hget]
        exact hit
    have hcldis : isDisabledIn s closetItem.key = false := by
      have hmem : closetItem ∈ s.items := List.get?_mem h8
      have := hWF.2.2.2 closetItem hmem
      unfold isDisabledIn
      rw [this]
      simp [hclns]
    have htarget : ∀ k, alGet s.orderMap k = some closetOrder →
        isDisabledIn s k = false := by
      intro k hk
      have : k = closetItem.key :=
        alGet_inj_of_snd_nodup (snd_nodup_of_rangeM hPerm) hk h9
      rw [this]
      exact hcldis
    obtain ⟨g1, g2, g3, g4, g5⟩ := resetBlockPositionByOrder_spec s
      s.items.length activeOrder closetOrder r hnd hPerm habounds.1
      habounds.2 htbounds.1 htbounds.2 htarget h10
    have hAunch : alGet r.1.orderMap activeItem.key = some activeOrder := by
      by_cases hch : alGet r.1.orderMap activeItem.key =
          alGet s.orderMap activeItem.key
      · rw [hch]
        exact h4
      · exfalso
        have hsome : ∃ o2, alGet r.1.orderMap activeItem.key = some o2 := by
          cases hc : alGet r.1.orderMap activeItem.key with
          | none =>
            exfalso
            have hs0 : alGet s.orderMap activeItem.key = none := by
              rw [alGet_eq_none, ← g1, ← alGet_eq_none]
              exact hc
            rw [h4] at hs0
            exact Option.noConfusion hs0
          | some o2 => exact ⟨o2, rfl⟩
        rcases hsome with ⟨o2, ho2⟩
        rcases g5 activeItem.key o2 hch ho2 with ⟨_, o1, p1, p2, p3, _⟩
        rw [h4] at p1
        injection p1 with p1
        exact p3 p1.symm
    have hfinstate : out.state.orderMap =
        alSet r.1.orderMap activeItem.key closetOrder := by
      rw [h11]
    have hfinitems : out.state.items = s.items := by
      rw [h11]
      exact g3
    have hfinitemMap : out.state.itemMap = s.itemMap := by
      rw [h11]
      exact g2
    refine ⟨hfinitems, hfinitemMap, ?_, ?_⟩
    · unfold PermInv
      rw [hfinitems]
      unfold ordersM
      rw [hfinstate]
      have hndr : (r.1.orderMap.map Prod.fst).Nodup := by
        rw [g1]
        exact hnd
      have := sndM_alSet hndr hAunch closetOrder
      rw [this]
      have hg4 : ((r.1.orderMap.map Prod.snd : List Int) : Multiset Int) =
          activeOrder ::ₘ (rangeM s.items.length).erase closetOrder := g4
      rw [hg4, Multiset.erase_cons_head,
        Multiset.cons_erase (mem_rangeM.2 ⟨htbounds.1, htbounds.2⟩)]
    · intro activeKey hak k hkne hch
      rcases hak with ⟨ai', activeItem', hai', hitem', hkey'⟩
      rw [h1] at hai'
      injection hai' with hai'
      rw [← hai'] at hitem'
      rw [h3] at hitem'
      injection hitem' with hitem'
      have hkeyeq : activeItem.key = activeKey := by
        rw [← hitem'] at hkey'
        exact hkey'
      have hkne' : k ≠ activeItem.key := by
        rw [hkeyeq]
        exact hkne
      have hgetk : alGet out.state.orderMap k = alGet r.1.orderMap k := by
        rw [hfinstate]
        exact alGet_alSet_ne _ _ _ hkne'
      rw [hgetk] at hch
      have hsome : ∃ o2, alGet r.1.orderMap k = some o2 := by
        cases hc : alGet r.1.orderMap k with
        | none =>
          exfalso
          have hs0 : alGet s.orderMap k = none := by
            rw [alGet_eq_none, ← g1, ← alGet_eq_none]
            exact hc
          exact hch (by rw [hc, hs0])
        | some o2 => exact ⟨o2, rfl⟩
      rcases hsome with ⟨o2, ho2⟩
      rcases g5 k o2 hch ho2 with ⟨hdd, o1, p1, p2, _, p4⟩
      refine ⟨hdd, o1, o2, p1, ?_, fun he => p2 he, p4⟩
      rw [hgetk]
      exact ho2

/-- C2: during a drag of the active item, a completed move-event
reconciliation never changes the stored order of any other
`disabledReSorted` item, and every other item whose order does change is
not `disabledReSorted` and jumps in one step across slots that are all
held by `disabledReSorted` keys — the shift skips each obstacle while
accumulating its count, so the jump length is exactly one plus the number
of skipped obstacles. -/
theorem C2_obstacle_property (ctx : DragCtx) (s : GridState)
    (moveX moveY : ℤ) (out : MoveOut) (ai : Nat) (activeItem : Item)
    (hWF : WFcore s) (hPerm : PermInv s)
    (hai : ctx.activeItemIndex = some ai)
    (hactive : s.items.get? ai = some activeItem)
    (hmove : onHandMove ctx s moveX moveY = some out) :
    (∀ k, isDisabledIn s k = true → k ≠ activeItem.key →
      alGet out.state.orderMap k = alGet s.orderMap k) ∧
    (∀ k o1 o2, k ≠ activeItem.key →
      alGet s.orderMap k = some o1 →
      alGet out.state.orderMap k = some o2 → o1 ≠ o2 →
      isDisabledIn s k = false ∧
      ∀ m, min o1 o2 < m → m < max o1 o2 →
        ∃ kd, alGet s.orderMap kd = some m ∧
          isDisabledIn s kd = true) := by
  obtain ⟨_, _, _, hclause⟩ :=
    onHandMove_spec ctx s moveX moveY out hWF hPerm hmove
  have hex : ∃ ai' activeItem', ctx.activeItemIndex = some ai' ∧
      s.items.get? ai' = some activeItem' ∧
      activeItem'.key = activeItem.key :=
    ⟨ai, activeItem, hai, hactive, rfl⟩
  constructor
  · intro k hdis hkne
    by_contra hch
    rcases hclause activeItem.key hex k hkne hch with ⟨hdd, _⟩
    rw [hdis] at hdd
    exact Bool.noConfusion hdd
  · intro k o1 o2 hkne hg1 hg2 hne
    have hch : alGet out.state.orderMap k ≠ alGet s.orderMap k := by
      rw [hg1, hg2]
      intro he
      injection he with he
      exact hne he.symm
    rcases hclause activeItem.key hex k hkne hch with
      ⟨hdd, o1', o2', p1, p2, p3, p4⟩
    rw [hg1] at p1
    injection p1 with p1
    rw [hg2] at p2
    injection p2 with p2
    subst p1
    subst p2
    exact ⟨hdd, p4⟩

theorem C2_obstacle_property_witness :
    isDisabledIn obsState "b1" = true ∧
      alGet obsOut.state.orderMap "b1" = alGet obsState.orderMap "b1" :=
  ⟨by decide,
    (C2_obstacle_property obsCtx obsState 0 100 obsOut 0 obsItem0
      (by unfold WFcore; exact ⟨by decide, by decide, by decide, by decide⟩)
      (by unfold PermInv; decide) rfl rfl (by decide)).1 "b1" (by decide)
      (by decide)⟩

/-! ### Item list lemmas for the diff pass -/

theorem keysOf_updateFirst (l : List Item) (item : Item) :
    keysOf (updateFirst l item) = keysOf l := by
  induction l with
  | nil => rfl
  | cons h t ih =>
    unfold updateFirst
    by_cases hk : h.key = item.key
    · rw [if_pos hk]
      unfold keysOf
      simp only [List.map_cons]
      rw [hk]
    · rw [if_neg hk]
      unfold keysOf at ih ⊢
      simp only [List.map_cons, ih]

theorem find?_updateFirst_self {l : List Item} {item : Item}
    (h : item.key ∈ keysOf l) :
    (updateFirst l item).find? (fun it => decide (it.key = item.key)) =
      some item := by
  induction l with
  | nil => simp [keysOf] at h
  | cons hd t ih =>
    unfold updateFirst
    by_cases hk : hd.key = item.key
    · rw [if_pos hk]
      simp [List.find?]
    · rw [if_neg hk]
      rw [List.find?]
      have : decide (hd.key = item.key) = false := by simp [hk]
      rw [this]
      apply ih
      unfold keysOf at h
      simp only [List.map_cons, List.mem_cons] at h
      rcases h with h | h
      · exact absurd h.symm hk
      · exact h

theorem find?_updateFirst_ne (l : List Item) (item : Item) {k : String}
    (h : k ≠ item.key) :
    (updateFirst l item).find? (fun it => decide (it.key = k)) =
      l.find? (fun it => decide (it.key = k)) := by
  induction l with
  | nil => rfl
  | cons hd t ih =>
    unfold updateFirst
    by_cases hk : hd.key = item.key
    · rw [if_pos hk]
      rw [List.find?, List.find?]
      have h1 : decide (item.key = k) = false := by
        simp
        exact fun he => h he.symm
      have h2 : decide (hd.key = k) = false := by
        simp
        rw [hk]
        exact fun he => h he.symm
      rw [h1, h2]
    · rw [if_neg hk]
      rw [List.find?, List.find?]
      cases hd2 : decide (hd.key = k) with
      | true => rfl
      | false => exact ih

theorem updateFirst_id {l : List Item} {item : Item}
    (h : l.find? (fun it => decide (it.key = item.key)) = some item) :
    updateFirst l item = l := by
  induction l with
  | nil => simp at h
  | cons hd t ih =>
    rw [List.find?] at h
    unfold updateFirst
    by_cases hk : hd.key = item.key
    · rw [if_pos hk]
      have : decide (hd.key = item.key) = true := by simp [hk]
      rw [this] at h
      injection h with h
      rw [h]
    · rw [if_neg hk]
      have : decide (hd.key = item.key) = false := by simp [hk]
      rw [this] at h
      rw [ih h]

theorem mem_updateFirst {l : List Item} {item it : Item}
    (hnd : (keysOf l).Nodup) (hmem : item.key ∈ keysOf l)
    (h : it ∈ updateFirst l item) :
    it = item ∨ (it ∈ l ∧ it.key ≠ item.key) := by
  induction l with
  | nil => simp [updateFirst] at h
  | cons hd t ih =>
    unfold keysOf at hnd hmem
    simp only [List.map_cons, List.nodup_cons] at hnd
    simp only [List.map_cons, List.mem_cons] at hmem
    unfold updateFirst at h
    by_cases hk : hd.key = item.key
    · rw [if_pos hk] at h
      rcases List.mem_cons.1 h with h1 | h1
      · exact Or.inl h1
      · right
        refine ⟨List.mem_cons_of_mem _ h1, ?_⟩
        intro he
        apply hnd.1
        rw [hk, ← he]
        exact List.mem_map.2 ⟨it, h1, rfl⟩
    · rw [if_neg hk] at h
      rcases List.mem_cons.1 h with h1 | h1
      · right
        rw [h1]
        exact ⟨List.mem_cons_self _ _, hk⟩
      · have hmem' : item.key ∈ keysOf t := by
          rcases hmem with h2 | h2
          · exact absurd h2.symm hk
          · exact h2
        rcases ih hnd.2 hmem' h1 with h2 | h2
        · exact Or.inl h2
        · exact Or.inr ⟨List.mem_cons_of_mem _ h2.1, h2.2⟩

theorem find?_append_right {α : Type} {l : List α} (l' : List α)
    {p : α → Bool} (h : l.find? p = none) :
    (l ++ l').find? p = l'.find? p := by
  induction l with
  | nil => rfl
  | cons hd t ih =>
    rw [List.find?] at h
    cases hp : p hd with
    | true =>
      rw [hp] at h
      exact absurd h (by simp)
    | false =>
      rw [hp] at h
      rw [List.cons_append, List.find?, hp]
      exact ih h

theorem keysOf_removeFirstKey (l : List Item) (k : String) :
    keysOf (removeFirstKey l k) = (keysOf l).erase k := by
  induction l with
  | nil => rfl
  | cons hd t ih =>
    unfold removeFirstKey
    by_cases hk : hd.key = k
    · rw [if_pos hk]
      unfold keysOf
      rw [List.map_cons, List.erase_cons]
      simp [hk]
    · rw [if_neg hk]
      unfold keysOf at ih ⊢
      rw [List.map_cons, List.map_cons, List.erase_cons]
      simp only [hk, beq_iff_eq, if_false, ite_false]
      rw [ih]

theorem find?_removeFirstKey_ne (l : List Item) (k : String) {k2 : String}
    (h : k2 ≠ k) :
    (removeFirstKey l k).find? (fun it => decide (it.key = k2)) =
      l.find? (fun it => decide (it.key = k2)) := by
  induction l with
  | nil => rfl
  | cons hd t ih =>
    unfold removeFirstKey
    by_cases hk : hd.key = k
    · rw [if_pos hk]
      rw [List.find?]
      have : decide (hd.key = k2) = false := by
        simp
        rw [hk]
        exact fun he => h he.symm
      rw [this]
    · rw [if_neg hk]
      rw [List.find?, List.find?]
      cases hd2 : decide (hd.key = k2) with
      | true => rfl
      | false => exact ih

theorem find?_append_left {α : Type} {l : List α} (l' : List α)
    {p : α → Bool} {x : α} (h : l.find? p = some x) :
    (l ++ l').find? p = some x := by
  induction l with
  | nil => simp at h
  | cons hd t ih =>
    rw [List.find?] at h
    rw [List.cons_append, List.find?]
    cases hp : p hd with
    | true =>
      rw [hp] at h
      exact h
    | false =>
      rw [hp] at h
      exact ih h

/-- Effect of one `diffData` body iteration. -/
theorem diffStep_spec (s : GridState) (anims : List String) (index : Nat)
    (item : Item) (hWF : WFcore s) :
    WFcore (diffStep (s, anims) (index, item)).1 ∧
    alGet (diffStep (s, anims) (index, item)).1.orderMap item.key =
      some (index : Int) ∧
    (diffStep (s, anims) (index, item)).1.items.find?
      (fun it => decide (it.key = item.key)) = some item ∧
    alGet (diffStep (s, anims) (index, item)).1.itemMap item.key =
      some item ∧
    (∀ k, k ≠ item.key →
      alGet (diffStep (s, anims) (index, item)).1.orderMap k =
        alGet s.orderMap k ∧
      (diffStep (s, anims) (index, item)).1.items.find?
        (fun it => decide (it.key = k)) =
        s.items.find? (fun it => decide (it.key = k)) ∧
      alGet (diffStep (s, anims) (index, item)).1.itemMap k =
        alGet s.itemMap k) ∧
    (∀ k, k ∈ keysOf (diffStep (s, anims) (index, item)).1.items ↔
      k ∈ keysOf s.items ∨ k = item.key) := by
  obtain ⟨hnd1, hnd2, hkp, hlive⟩ := hWF
  cases hg : alGet s.orderMap item.key with
  | some o =>
    have hstep : (diffStep (s, anims) (index, item)).1 =
        { items := updateFirst s.items item
          orderMap := if o ≠ (index : Int) then
            alSet s.orderMap item.key (index : Int) else s.orderMap
          itemMap := alSet s.itemMap item.key item } := by
      simp only [diffStep]
      rw [hg]
    rw [hstep]
    have hmemo : item.key ∈ s.orderMap.map Prod.fst := by
      rw [← alGet_isSome, hg]
      rfl
    have hmemi : item.key ∈ keysOf s.items := hkp.mem_iff.1 hmemo
    have homget : alGet (if o ≠ (index : Int) then
        alSet s.orderMap item.key (index : Int) else s.orderMap) item.key =
        some (index : Int) := by
      by_cases hch : o ≠ (index : Int)
      · rw [if_pos hch]
        exact alGet_alSet_self _ _ _
      · rw [if_neg hch]
        push_neg at hch
        rw [hg, hch]
    have homfst : (if o ≠ (index : Int) then
        alSet s.orderMap item.key (index : Int)
        else s.orderMap).map Prod.fst = s.orderMap.map Prod.fst := by
      by_cases hch : o ≠ (index : Int)
      · rw [if_pos hch]
        exact alSet_map_fst_mem _ hmemo
      · rw [if_neg hch]
    refine ⟨⟨?_, ?_, ?_, ?_⟩, homget, ?_, ?_, ?_, ?_⟩
    · show ((if o ≠ (index : Int) then
        alSet s.orderMap item.key (index : Int)
        else s.orderMap).map Prod.fst).Nodup
      rw [homfst]
      exact hnd1
    · exact alSet_nodup_fst _ hnd2
    · show List.Perm ((if o ≠ (index : Int) then
        alSet s.orderMap item.key (index : Int)
        else s.orderMap).map Prod.fst) (keysOf (updateFirst s.items item))
      rw [homfst, keysOf_updateFirst]
      exact hkp
    · intro it hit
      rcases mem_updateFirst (hkp.nodup hnd1) hmemi hit with h1 | ⟨h1, h2⟩
      · rw [h1]
        exact alGet_alSet_self _ _ _
      · show alGet (alSet s.itemMap item.key item) it.key = some it
        rw [alGet_alSet_ne _ _ _ h2]
        exact hlive it h1
    · exact find?_updateFirst_self hmemi
    · exact alGet_alSet_self _ _ _
    · intro k hk
      refine ⟨?_, ?_, ?_⟩
      · show alGet (if o ≠ (index : Int) then
          alSet s.orderMap item.key (index : Int) else s.orderMap) k =
          alGet s.orderMap k
        by_cases hch : o ≠ (index : Int)
        · rw [if_pos hch]
          exact alGet_alSet_ne _ _ _ hk
        · rw [if_neg hch]
      · exact find?_updateFirst_ne _ _ hk
      · exact alGet_alSet_ne _ _ _ hk
    · intro k
      show k ∈ keysOf (updateFirst s.items item) ↔ _
      rw [keysOf_updateFirst]
      constructor
      · exact Or.inl
      · rintro (h | h)
        · exact h
        · rw [h]
          exact hmemi
  | none =>
    have hstep : (diffStep (s, anims) (index, item)).1 =
        addItem s item index := by
      simp only [diffStep]
      rw [hg]
    rw [hstep]
    have hnot : item.key ∉ s.orderMap.map Prod.fst := by
      rw [← alGet_eq_none]
      exact hg
    have hnoti : item.key ∉ keysOf s.items := fun h =>
      hnot (hkp.mem_iff.2 h)
    have hfindn : s.items.find? (fun it => decide (it.key = item.key)) =
        none := by
      rw [List.find?_eq_none]
      intro it hit
      simp only [decide_eq_true_eq]
      intro he
      exact hnoti (he ▸ List.mem_map.2 ⟨it, hit, rfl⟩)
    have hkeysapp : keysOf (s.items ++ [item]) =
        keysOf s.items ++ [item.key] := by
      unfold keysOf
      rw [List.map_append]
      rfl
    unfold addItem
    refine ⟨⟨?_, ?_, ?_, ?_⟩, ?_, ?_, ?_, ?_, ?_⟩
    · show ((alSet s.orderMap item.key (index : Int)).map Prod.fst).Nodup
      rw [alSet_map_fst_not_mem _ hnot]
      simp [List.nodup_append, hnd1, hnot]
    · exact alSet_nodup_fst _ hnd2
    · show List.Perm ((alSet s.orderMap item.key (index : Int)).map
        Prod.fst) (keysOf (s.items ++ [item]))
      rw [alSet_map_fst_not_mem _ hnot, hkeysapp]
      exact hkp.append_right _
    · intro it hit
      rcases List.mem_append.1 hit with h1 | h1
      · have hne : it.key ≠ item.key := by
          intro he
          exact hnoti (he ▸ List.mem_map.2 ⟨it, h1, rfl⟩)
        show alGet (alSet s.itemMap item.key item) it.key = some it
        rw [alGet_alSet_ne _ _ _ hne]
        exact hlive it h1
      · rcases List.mem_cons.1 h1 with h2 | h2
        · rw [h2]
          exact alGet_alSet_self _ _ _
        · simp at h2
    · exact alGet_alSet_self _ _ _
    · show (s.items ++ [item]).find?
        (fun it => decide (it.key = item.key)) = some item
      rw [find?_append_right _ hfindn]
      simp [List.find?]
    · exact alGet_alSet_self _ _ _
    · intro k hk
      refine ⟨alGet_alSet_ne _ _ _ hk, ?_, alGet_alSet_ne _ _ _ hk⟩
      show (s.items ++ [item]).find? (fun it => decide (it.key = k)) = _
      cases hf : s.items.find? (fun it => decide (it.key = k)) with
      | some x => exact find?_append_left _ hf
      | none =>
        rw [find?_append_right _ hf]
        rw [List.find?]
        have hdk : decide (item.key = k) = false := by
          simp
          exact fun he => hk he.symm
        rw [hdk]
        rfl
    · intro k
      show k ∈ keysOf (s.items ++ [item]) ↔ _
      rw [hkeysapp]
      simp [List.mem_append]

/-- Effect of the whole `props.data.forEach` fold of `diffData`, indices
starting at `n`: every processed key ends at its list index, untouched
keys are preserved, and the tracked key set grows by the new keys. -/
theorem diffFold_spec :
    ∀ (l : List Item) (n : Nat) (s : GridState) (anims : List String)
      (r : GridState × List String),
      (withIdx n l).foldl diffStep (s, anims) = r →
      WFcore s → (keysOf l).Nodup →
      WFcore r.1 ∧
      (∀ j (hj : j < l.length),
        alGet r.1.orderMap (l.get ⟨j, hj⟩).key =
          some ((n + j : Nat) : Int) ∧
        r.1.items.find? (fun it => decide (it.key = (l.get ⟨j, hj⟩).key)) =
          some (l.get ⟨j, hj⟩) ∧
        alGet r.1.itemMap (l.get ⟨j, hj⟩).key = some (l.get ⟨j, hj⟩)) ∧
      (∀ k, k ∉ keysOf l →
        alGet r.1.orderMap k = alGet s.orderMap k ∧
        r.1.items.find? (fun it => decide (it.key = k)) =
          s.items.find? (fun it => decide (it.key = k)) ∧
        alGet r.1.itemMap k = alGet s.itemMap k) ∧
      (∀ k, k ∈ keysOf r.1.items ↔
        k ∈ keysOf s.items ∨ k ∈ keysOf l) := by
  intro l
  induction l with
  | nil =>
    intro n s anims r hr hWF _
    rw [show withIdx n ([] : List Item) = [] from rfl] at hr
    rw [List.foldl_nil] at hr
    subst hr
    refine ⟨hWF, ?_, ?_, ?_⟩
    · intro j hj
      exact absurd hj (by simp)
    · intro k _
      exact ⟨rfl, rfl, rfl⟩
    · intro k
      simp [keysOf]
  | cons item l' ih =>
    intro n s anims r hr hWF hnd
    have hndt : (keysOf l').Nodup := by
      unfold keysOf at hnd
      rw [List.map_cons, List.nodup_cons] at hnd
      exact hnd.2
    have hhead : item.key ∉ keysOf l' := by
      unfold keysOf at hnd ⊢
      rw [List.map_cons, List.nodup_cons] at hnd
      exact hnd.1
    rw [show withIdx n (item :: l') = (n, item) :: withIdx (n + 1) l'
      from rfl, List.foldl_cons] at hr
    obtain ⟨hWF1, hsget, hsfind, hsimap, hspres, hskeys⟩ :=
      diffStep_spec s anims n item hWF
    have hr' : (withIdx (n + 1) l').foldl diffStep
        ((diffStep (s, anims) (n, item)).1,
          (diffStep (s, anims) (n, item)).2) = r := hr
    obtain ⟨hWFr, hidx, hpres, hkeys⟩ :=
      ih (n + 1) (diffStep (s, anims) (n, item)).1
        (diffStep (s, anims) (n, item)).2 r hr' hWF1 hndt
    refine ⟨hWFr, ?_, ?_, ?_⟩
    · intro j hj
      cases j with
      | zero =>
        have hget0 : (item :: l').get ⟨0, hj⟩ = item := rfl
        rw [hget0]
        obtain ⟨q1, q2, q3⟩ := hpres item.key hhead
        have hcast : ((n + 0 : Nat) : Int) = ((n : Nat) : Int) := by
          norm_num
        rw [hcast]
        exact ⟨q1.trans hsget, q2.trans hsfind, q3.trans hsimap⟩
      | succ j' =>
        have hj' : j' < l'.length := by
          simp at hj
          omega
        have hgets : (item :: l').get ⟨j' + 1, hj⟩ = l'.get ⟨j', hj'⟩ := rfl
        rw [hgets]
        have hcast : ((n + (j' + 1) : Nat) : Int) =
            (((n + 1) + j' : Nat) : Int) := by
          push_cast
          ring
        rw [hcast]
        exact hidx j' hj'
    · intro k hk
      have hk1 : k ≠ item.key := by
        intro he
        apply hk
        unfold keysOf
        rw [List.map_cons]
        exact he ▸ List.mem_cons_self _ _
      have hk2 : k ∉ keysOf l' := by
        intro he
        apply hk
        unfold keysOf at he ⊢
        rw [List.map_cons]
        exact List.mem_cons_of_mem _ he
      obtain ⟨q1, q2, q3⟩ := hpres k hk2
      obtain ⟨p1, p2, p3⟩ := hspres k hk1
      exact ⟨q1.trans p1, q2.trans p2, q3.trans p3⟩
    · intro k
      rw [hkeys k]
      have hkeyscons : keysOf (item :: l') = item.key :: keysOf l' := rfl
      rw [hskeys k, hkeyscons]
      simp only [List.mem_cons]
      tauto

theorem alDelete_map_fst {α : Type} (m : List (String × α)) (k : String) :
    (alDelete m k).map Prod.fst =
      (m.map Prod.fst).filter (fun x => decide (x ≠ k)) := by
  induction m with
  | nil => rfl
  | cons p t ih =>
    unfold alDelete at ih ⊢
    rw [List.filter_cons, List.map_cons, List.filter_cons]
    by_cases hp : p.1 = k
    · have hc : decide (p.1 ≠ k) = false := by simp [hp]
      rw [hc]
      simp only [Bool.false_eq_true, if_false]
      exact ih
    · have hc : decide (p.1 ≠ k) = true := by simp [hp]
      rw [hc]
      simp only [if_true]
      rw [List.map_cons, ih]

theorem mem_removeFirstKey {l : List Item} {k : String} {it : Item}
    (h : it ∈ removeFirstKey l k) : it ∈ l := by
  induction l with
  | nil => simp [removeFirstKey] at h
  | cons hd t ih =>
    unfold removeFirstKey at h
    by_cases hk : hd.key = k
    · rw [if_pos hk] at h
      exact List.mem_cons_of_mem _ h
    · rw [if_neg hk] at h
      rcases List.mem_cons.1 h with h1 | h1
      · rw [h1]
        exact List.mem_cons_self _ _
      · exact List.mem_cons_of_mem _ (ih h1)

theorem removeItem_WF {s : GridState} (d : Item) (hWF : WFcore s) :
    WFcore (removeItem s d) := by
  obtain ⟨hnd1, hnd2, hkp, hlive⟩ := hWF
  refine ⟨?_, hnd2, ?_, ?_⟩
  · show ((alDelete s.orderMap d.key).map Prod.fst).Nodup
    rw [alDelete_map_fst]
    exact hnd1.filter _
  · show List.Perm ((alDelete s.orderMap d.key).map Prod.fst)
      (keysOf (removeFirstKey s.items d.key))
    rw [alDelete_map_fst, keysOf_removeFirstKey,
      List.Nodup.erase_eq_filter (hkp.nodup hnd1)]
    rw [show (fun x : String => x != d.key) =
      (fun x => decide (x ≠ d.key)) from funext fun x => by
        by_cases hx : x = d.key <;> simp [bne, hx]]
    exact hkp.filter _
  · intro it hit
    exact hlive it (mem_removeFirstKey hit)

theorem removeFold_spec :
    ∀ (ds : List Item) (s : GridState),
      WFcore s →
      WFcore (ds.foldl removeItem s) ∧
      (ds.foldl removeItem s).itemMap = s.itemMap ∧
      (∀ k, k ∉ keysOf ds →
        alGet (ds.foldl removeItem s).orderMap k = alGet s.orderMap k ∧
        (ds.foldl removeItem s).items.find?
            (fun it => decide (it.key = k)) =
          s.items.find? (fun it => decide (it.key = k))) ∧
      (∀ k, alGet s.orderMap k = none →
        alGet (ds.foldl removeItem s).orderMap k = none) ∧
      (∀ d ∈ ds, alGet (ds.foldl removeItem s).orderMap d.key = none) := by
  intro ds
  induction ds with
  | nil =>
    intro s hWF
    refine ⟨hWF, rfl, ?_, ?_, ?_⟩
    · intro k _
      exact ⟨rfl, rfl⟩
    · intro k h
      exact h
    · intro d hd
      simp at hd
  | cons d ds' ih =>
    intro s hWF
    rw [List.foldl_cons]
    obtain ⟨iWF, iMap, iPres, iNone, iDel⟩ := ih (removeItem s d)
      (removeItem_WF d hWF)
    refine ⟨iWF, iMap, ?_, ?_, ?_⟩
    · intro k hk
      have hk1 : k ≠ d.key := by
        intro he
        apply hk
        unfold keysOf
        rw [List.map_cons]
        exact he ▸ List.mem_cons_self _ _
      have hk2 : k ∉ keysOf ds' := by
        intro he
        apply hk
        unfold keysOf at he ⊢
        rw [List.map_cons]
        exact List.mem_cons_of_mem _ he
      obtain ⟨q1, q2⟩ := iPres k hk2
      refine ⟨q1.trans ?_, q2.trans ?_⟩
      · exact alGet_alDelete_ne _ _ hk1
      · exact find?_removeFirstKey_ne _ _ hk1
    · intro k hnone
      apply iNone
      show alGet (alDelete s.orderMap d.key) k = none
      by_cases hk : k = d.key
      · rw [hk]
        exact alGet_alDelete_self _ _
      · rw [alGet_alDelete_ne _ _ hk]
        exact hnone
    · intro e he
      rcases List.mem_cons.1 he with h1 | h1
      · apply iNone
        rw [h1]
        exact alGet_alDelete_self _ _
      · exact iDel e h1

/-- A keyed registry with no duplicate keys whose lookups are given by a
function on a key list carries exactly the multiset of that function's
values. -/
theorem sndM_of_lookup :
    ∀ (m : List (String × Int)) (K : List String) (f : String → Int),
      (m.map Prod.fst).Nodup → K.Nodup →
      (m.map Prod.fst).Perm K →
      (∀ k ∈ K, alGet m k = some (f k)) →
      (m.map Prod.snd).Perm (K.map f) := by
  intro m
  induction m with
  | nil =>
    intro K f _ _ hp _
    have : K = [] := (List.perm_nil.1 hp.symm)
    rw [this]
    exact List.Perm.refl _
  | cons p t ih =>
    intro K f hnd hndK hp hget
    rw [List.map_cons] at hp hnd
    rw [List.nodup_cons] at hnd
    have hmem : p.1 ∈ K := hp.mem_iff.1 (List.mem_cons_self _ _)
    have hpt : (t.map Prod.fst).Perm (K.erase p.1) := by
      have := List.cons_perm_iff_perm_erase.1 hp
      exact this.2
    have hv : p.2 = f p.1 := by
      have h2 := hget p.1 hmem
      rw [alGet_cons, if_pos rfl] at h2
      exact Option.some.inj h2
    have hgett : ∀ k ∈ K.erase p.1, alGet t k = some (f k) := by
      intro k hk
      have hkK : k ∈ K := List.mem_of_mem_erase hk
      have hkne : k ≠ p.1 := by
        rcases (List.Nodup.mem_erase_iff hndK).1 hk with ⟨h1, _⟩
        exact h1
      have := hget k hkK
      rw [alGet_cons, if_neg (fun he => hkne he.symm)] at this
      exact this
    have iht := ih (K.erase p.1) f hnd.2 (hndK.erase _) hpt hgett
    rw [List.map_cons]
    have hKperm : (K.map f).Perm (f p.1 :: (K.erase p.1).map f) := by
      have := List.perm_cons_erase hmem
      exact this.map f
    refine List.Perm.trans ?_ hKperm.symm
    rw [hv]
    exact iht.cons _

/-- In a list of items with pairwise distinct keys, searching for the key
of the `j`-th item finds index `j`. -/
theorem findIdx_key_get :
    ∀ (L : List Item), (keysOf L).Nodup → ∀ j (hj : j < L.length),
      L.findIdx (fun it => decide (it.key = (L.get ⟨j, hj⟩).key)) = j := by
  intro L
  induction L with
  | nil =>
    intro _ j hj
    simp at hj
  | cons hd t ih =>
    intro hnd j hj
    unfold keysOf at hnd
    rw [List.map_cons, List.nodup_cons] at hnd
    cases j with
    | zero =>
      rw [List.findIdx_cons]
      simp
    | succ j' =>
      have hj' : j' < t.length := by
        simp at hj
        omega
      have hget : (hd :: t).get ⟨j' + 1, hj⟩ = t.get ⟨j', hj'⟩ := rfl
      rw [hget, List.findIdx_cons]
      have hne : decide (hd.key = (t.get ⟨j', hj'⟩).key) = false := by
        simp only [decide_eq_false_iff_not]
        intro he
        apply hnd.1
        rw [he]
        exact List.mem_map.2 ⟨t.get ⟨j', hj'⟩, t.get_mem _ _, rfl⟩
      rw [hne]
      simp only [cond_false]
      rw [ih hnd.2 j' hj']

/-- Master specification of `diffData`: after a pass over a list with
pairwise distinct keys, every list key holds the order equal to its list
index with its runtime record and cached data refreshed, every other key
is gone from the registry, and the tracked keys are exactly the list
keys. -/
theorem diffData_spec (s : GridState) (L : List Item)
    (hWF : WFcore s) (hnd : (keysOf L).Nodup) :
    WFcore (diffData s L).1 ∧
    (∀ j (hj : j < L.length),
      alGet (diffData s L).1.orderMap (L.get ⟨j, hj⟩).key =
        some (j : Int) ∧
      (diffData s L).1.items.find?
          (fun it => decide (it.key = (L.get ⟨j, hj⟩).key)) =
        some (L.get ⟨j, hj⟩) ∧
      alGet (diffData s L).1.itemMap (L.get ⟨j, hj⟩).key =
        some (L.get ⟨j, hj⟩)) ∧
    (∀ k, k ∉ keysOf L → alGet (diffData s L).1.orderMap k = none) ∧
    (∀ k, k ∈ keysOf (diffData s L).1.items ↔ k ∈ keysOf L) := by
  obtain ⟨fWF, fidx, fpres, fkeys⟩ := diffFold_spec L 0 s []
    ((withIdx 0 L).foldl diffStep (s, [])) rfl hWF hnd
  have hstate : (diffData s L).1 =
      (((withIdx 0 L).foldl diffStep (s, [])).1.items.filter
        (fun it => ¬ L.any fun d => decide (d.key = it.key))).foldl
        removeItem ((withIdx 0 L).foldl diffStep (s, [])).1 := rfl
  obtain ⟨rWF, rMap, rPres, rNone, rDel⟩ := removeFold_spec
    (((withIdx 0 L).foldl diffStep (s, [])).1.items.filter
      (fun it => ¬ L.any fun d => decide (d.key = it.key)))
    ((withIdx 0 L).foldl diffStep (s, [])).1 fWF
  have hdel_key : ∀ it, it ∈ (((withIdx 0 L).foldl diffStep
      (s, [])).1.items.filter
      (fun it => ¬ L.any fun d => decide (d.key = it.key))) →
      it.key ∉ keysOf L := by
    intro it hit hk
    have := List.of_mem_filter hit
    simp only [decide_eq_true_eq, List.any_eq_true, decide_eq_true_eq]
      at this
    apply this
    rcases List.mem_map.1 hk with ⟨d, hd, hdk⟩
    exact ⟨d, hd, hdk⟩
  have hLnotdel : ∀ k, k ∈ keysOf L →
      k ∉ keysOf (((withIdx 0 L).foldl diffStep (s, [])).1.items.filter
        (fun it => ¬ L.any fun d => decide (d.key = it.key))) := by
    intro k hkL hkd
    rcases List.mem_map.1 hkd with ⟨d, hd, hdk⟩
    exact hdel_key d hd (hdk ▸ hkL)
  refine ⟨hstate ▸ rWF, ?_, ?_, ?_⟩
  · intro j hj
    have hkL : (L.get ⟨j, hj⟩).key ∈ keysOf L :=
      List.mem_map.2 ⟨L.get ⟨j, hj⟩, L.get_mem _ _, rfl⟩
    obtain ⟨q1, q2⟩ := rPres _ (hLnotdel _ hkL)
    obtain ⟨p1, p2, p3⟩ := fidx j hj
    rw [hstate]
    refine ⟨q1.trans ?_, q2.trans ?_, ?_⟩
    · rw [p1]
      norm_num
    · exact p2
    · rw [rMap]
      exact p3
  · intro k hk
    rw [hstate]
    by_cases hkr : k ∈ keysOf ((withIdx 0 L).foldl diffStep (s, [])).1.items
    · rcases List.mem_map.1 hkr with ⟨it, hit, hitk⟩
      have hitd : it ∈ (((withIdx 0 L).foldl diffStep (s, [])).1.items.filter
          (fun it => ¬ L.any fun d => decide (d.key = it.key))) := by
        rw [List.mem_filter]
        refine ⟨hit, ?_⟩
        simp only [decide_eq_true_eq, List.any_eq_true, decide_eq_true_eq]
        rintro ⟨d, hd, hdk⟩
        apply hk
        rw [← hitk, ← hdk]
        exact List.mem_map.2 ⟨d, hd, rfl⟩
      have := rDel it hitd
      rw [hitk] at this
      exact this
    · apply rNone
      rw [alGet_eq_none]
      intro hmemf
      apply hkr
      exact (fWF.2.2.1.mem_iff).1 hmemf
  · intro k
    constructor
    · intro hk
      by_contra hkL
      have hnone : alGet (diffData s L).1.orderMap k = none := by
        rw [hstate]
        by_cases hkr : k ∈ keysOf ((withIdx 0 L).foldl diffStep
            (s, [])).1.items
        · rcases List.mem_map.1 hkr with ⟨it, hit, hitk⟩
          have hitd : it ∈ (((withIdx 0 L).foldl diffStep
              (s, [])).1.items.filter
              (fun it => ¬ L.any fun d => decide (d.key = it.key))) := by
            rw [List.mem_filter]
            refine ⟨hit, ?_⟩
            simp only [decide_eq_true_eq, List.any_eq_true,
              decide_eq_true_eq]
            rintro ⟨d, hd, hdk⟩
            apply hkL
            rw [← hitk, ← hdk]
            exact List.mem_map.2 ⟨d, hd, rfl⟩
          have := rDel it hitd
          rw [hitk] at this
          exact this
        · apply rNone
          rw [alGet_eq_none]
          intro hmemf
          exact hkr ((fWF.2.2.1.mem_iff).1 hmemf)
      have hsome : k ∈ (diffData s L).1.orderMap.map Prod.fst :=
        ((hstate ▸ rWF).2.2.1.mem_iff).2 hk
      rw [← alGet_isSome] at hsome
      rw [hnone] at hsome
      simp at hsome
    · intro hkL
      rcases List.mem_map.1 hkL with ⟨it, hit, hitk⟩
      rcases List.mem_iff_get.1 hit with ⟨⟨j, hj⟩, hget⟩
      obtain ⟨q1, q2⟩ := rPres _ (hLnotdel _ hkL)
      obtain ⟨p1, _, _⟩ := fidx j hj
      have hkey : (L.get ⟨j, hj⟩).key = k := by
        rw [hget, hitk]
      have : alGet (diffData s L).1.orderMap k = some (j : Int) := by
        rw [hstate]
        rw [← hkey]
        refine (rPres _ (hLnotdel _ (hkey ▸ hkL))).1.trans ?_
        rw [p1]
        norm_num
      have hsome : k ∈ (diffData s L).1.orderMap.map Prod.fst := by
        rw [← alGet_isSome, this]
        rfl
      exact ((hstate ▸ rWF).2.2.1.mem_iff).1 hsome

/-- After a diff pass over a list with pairwise distinct keys, the
registry's orders are exactly `{0 .. L.length - 1}`. -/
theorem diffData_permInv (s : GridState) (L : List Item)
    (hWF : WFcore s) (hnd : (keysOf L).Nodup) :
    PermInv (diffData s L).1 ∧
    (diffData s L).1.items.length = L.length ∧
    (diffData s L).1.orderMap.length = L.length := by
  obtain ⟨sWF, sidx, snone, skeys⟩ := diffData_spec s L hWF hnd
  have hknodup : (keysOf (diffData s L).1.items).Nodup :=
    sWF.2.2.1.nodup sWF.1
  have hkitems : (keysOf (diffData s L).1.items).Perm (keysOf L) :=
    (List.perm_ext_iff_of_nodup hknodup hnd).2 skeys
  have hfstperm : ((diffData s L).1.orderMap.map Prod.fst).Perm
      (keysOf L) := sWF.2.2.1.trans hkitems
  have hitemslen : (diffData s L).1.items.length = L.length := by
    have h1 := hkitems.length_eq
    unfold keysOf at h1
    rw [List.length_map, List.length_map] at h1
    exact h1
  have hmaplen : (diffData s L).1.orderMap.length = L.length := by
    have h1 := hfstperm.length_eq
    unfold keysOf at h1
    rw [List.length_map, List.length_map] at h1
    exact h1
  have hlookup : ∀ k ∈ keysOf L, alGet (diffData s L).1.orderMap k =
      some (((L.findIdx fun it => decide (it.key = k)) : Nat) : Int) := by
    intro k hk
    rcases List.mem_map.1 hk with ⟨it, hit, hitk⟩
    rcases List.mem_iff_get.1 hit with ⟨⟨j, hj⟩, hget⟩
    have hkey : (L.get ⟨j, hj⟩).key = k := by
      rw [hget, hitk]
    have hidx := (sidx j hj).1
    rw [hkey] at hidx
    rw [hidx]
    have hfi : L.findIdx (fun it => decide (it.key = k)) = j := by
      rw [← hkey]
      exact findIdx_key_get L hnd j hj
    rw [hfi]
  have hpermsnd := sndM_of_lookup (diffData s L).1.orderMap (keysOf L)
    (fun k => (((L.findIdx fun it => decide (it.key = k)) : Nat) : Int))
    sWF.1 (hkitems.nodup hknodup) hfstperm hlookup
  have hlenk : (keysOf L).length = L.length := by
    unfold keysOf
    rw [List.length_map]
  have hmapeq : (keysOf L).map
      (fun k => (((L.findIdx fun it => decide (it.key = k)) : Nat) : Int)) =
      (List.range L.length).map (fun (i : Nat) => (i : Int)) := by
    apply List.ext_get
    · rw [List.length_map, List.length_map, List.length_range, hlenk]
    · intro i h1 h2
      have hi : i < L.length := by
        rw [List.length_map, hlenk] at h1
        exact h1
      rw [List.get_map, List.get_map, List.get_range]
      have hkget : ∀ (h : i < (keysOf L).length),
          (keysOf L).get ⟨i, h⟩ = (L.get ⟨i, hi⟩).key := by
        intro h
        unfold keysOf
        rw [List.get_map]
      rw [hkget]
      rw [findIdx_key_get L hnd i hi]
  refine ⟨?_, hitemslen, hmaplen⟩
  unfold PermInv ordersM rangeM
  rw [hitemslen]
  rw [Multiset.coe_eq_coe]
  rw [← hmapeq]
  exact hpermsnd

theorem onHandRelease_state (ctx : DragCtx) (s : GridState) :
    (onHandRelease ctx s).state = s := by
  unfold onHandRelease
  split
  · rfl
  · split <;> rfl

/-- C1: after each public operation completes — a move event's
reconciliation, a release, and a diff pass over an external list with
pairwise distinct keys — the multiset of stored orders is exactly
`{0, ..., n-1}` for `n` the number of tracked items (`PermInv`).  A
release never mutates the registry; a move preserves the invariant; a
diff pass (re)establishes it outright. -/
theorem C1_registry_permutation :
    (∀ (ctx : DragCtx) (s : GridState) (moveX moveY : ℤ) (out : MoveOut),
      WFcore s → PermInv s → onHandMove ctx s moveX moveY = some out →
      PermInv out.state) ∧
    (∀ (ctx : DragCtx) (s : GridState), PermInv s →
      PermInv (onHandRelease ctx s).state) ∧
    (∀ (s : GridState) (L : List Item), WFcore s → (keysOf L).Nodup →
      PermInv (diffData s L).1) := by
  refine ⟨?_, ?_, ?_⟩
  · intro ctx s moveX moveY out hWF hPerm hmove
    exact (onHandMove_spec ctx s moveX moveY out hWF hPerm hmove).2.2.1
  · intro ctx s hPerm
    rw [show (onHandRelease ctx s).state = s from onHandRelease_state ctx s]
    exact hPerm
  · intro s L hWF hnd
    exact (diffData_permInv s L hWF hnd).1

theorem C1_registry_permutation_witness :
    onHandMove obsCtx obsState 0 100 = some obsOut ∧ PermInv obsOut.state :=
  ⟨by decide, C1_registry_permutation.1 obsCtx obsState 0 100 obsOut
    (by unfold WFcore; exact ⟨by decide, by decide, by decide, by decide⟩)
    (by unfold PermInv; decide) (by decide)⟩

/-- Unfolding equation for `diffData`. -/
theorem diffData_eq (s : GridState) (data : List Item) :
    diffData s data =
      ((((withIdx 0 data).foldl diffStep (s, [])).1.items.filter
        (fun it => ¬ data.any fun d => decide (d.key = it.key))).foldl
        removeItem ((withIdx 0 data).foldl diffStep (s, [])).1,
        ((withIdx 0 data).foldl diffStep (s, [])).2) := rfl

/-- A diff fold over a registry already synchronized with the list is the
identity and schedules nothing. -/
theorem diffFold_id :
    ∀ (l : List Item) (n : Nat) (s : GridState) (anims : List String),
      (s.itemMap.map Prod.fst).Nodup →
      (∀ j (hj : j < l.length),
        alGet s.orderMap (l.get ⟨j, hj⟩).key = some ((n + j : Nat) : Int) ∧
        s.items.find? (fun it => decide (it.key = (l.get ⟨j, hj⟩).key)) =
          some (l.get ⟨j, hj⟩) ∧
        alGet s.itemMap (l.get ⟨j, hj⟩).key = some (l.get ⟨j, hj⟩)) →
      (withIdx n l).foldl diffStep (s, anims) = (s, anims) := by
  intro l
  induction l with
  | nil =>
    intro n s anims _ _
    rfl
  | cons item l' ih =>
    intro n s anims hndIM hsync
    have h0 := hsync 0 (by simp)
    have ho : alGet s.orderMap item.key = some ((n + 0 : Nat) : Int) :=
      h0.1
    have hf : s.items.find? (fun it => decide (it.key = item.key)) =
        some item := h0.2.1
    have hm : alGet s.itemMap item.key = some item := h0.2.2
    simp only [Nat.add_zero] at ho
    have hstep : diffStep (s, anims) (n, item) = (s, anims) := by
      have hstep2 : diffStep (s, anims) (n, item) =
          ({ items := updateFirst s.items item
             orderMap := if (n : Int) ≠ (n : Int) then
               alSet s.orderMap item.key (n : Int) else s.orderMap
             itemMap := alSet s.itemMap item.key item },
            if (n : Int) ≠ (n : Int) then anims ++ [item.key]
            else anims) := by
        simp only [diffStep]
        rw [ho]
      rw [hstep2]
      rw [if_neg (fun h => h rfl), if_neg (fun h => h rfl)]
      rw [updateFirst_id hf, alSet_self_id hndIM hm]
    rw [show withIdx n (item :: l') = (n, item) :: withIdx (n + 1) l'
      from rfl, List.foldl_cons, hstep]
    apply ih (n + 1) s anims hndIM
    intro j hj
    have hj1 : j + 1 < (item :: l').length := by
      simp
      omega
    have hgets : (item :: l').get ⟨j + 1, hj1⟩ = l'.get ⟨j, hj⟩ := rfl
    have := hsync (j + 1) hj1
    rw [hgets] at this
    obtain ⟨q1, q2, q3⟩ := this
    refine ⟨?_, q2, q3⟩
    rw [q1]
    have : ((n + (j + 1) : Nat) : Int) = (((n + 1) + j : Nat) : Int) := by
      push_cast
      ring
    rw [this]

/-- C7: running the diff pass a second time with the same external list
(pairwise distinct keys) performs no registry mutation — every stored
order already equals its list index, no item is inserted or removed —
and schedules no position animation. -/
theorem C7_diff_idempotence (s : GridState) (L : List Item)
    (hWF : WFcore s) (hnd : (keysOf L).Nodup) :
    diffData (diffData s L).1 L = ((diffData s L).1, []) := by
  obtain ⟨sWF, sidx, snone, skeys⟩ := diffData_spec s L hWF hnd
  have hfold : (withIdx 0 L).foldl diffStep ((diffData s L).1, []) =
      ((diffData s L).1, []) := by
    apply diffFold_id L 0 (diffData s L).1 [] sWF.2.1
    intro j hj
    obtain ⟨p1, p2, p3⟩ := sidx j hj
    refine ⟨?_, p2, p3⟩
    rw [p1]
    norm_num
  rw [diffData_eq, hfold]
  have hdel : ((diffData s L).1.items.filter
      (fun it => ¬ L.any fun d => decide (d.key = it.key))) = [] := by
    rw [List.filter_eq_nil]
    intro it hit
    have hkL : it.key ∈ keysOf L :=
      (skeys it.key).1 (List.mem_map.2 ⟨it, hit, rfl⟩)
    rcases List.mem_map.1 hkL with ⟨d, hd, hdk⟩
    simp only [decide_eq_true_eq, not_not, List.any_eq_true]
    exact ⟨d, hd, hdk⟩
  rw [hdel]
  rfl

theorem C7_diff_idempotence_witness :
    WFcore g4state ∧ (keysOf [gItem0, gItem1, gItem2, gItem3]).Nodup ∧
    diffData (diffData g4state [gItem0, gItem1, gItem2, gItem3]).1
      [gItem0, gItem1, gItem2, gItem3] =
      ((diffData g4state [gItem0, gItem1, gItem2, gItem3]).1, []) :=
  ⟨by unfold WFcore; exact ⟨by decide, by decide, by decide, by decide⟩,
   by decide,
   C7_diff_idempotence g4state [gItem0, gItem1, gItem2, gItem3]
     (by unfold WFcore; exact ⟨by decide, by decide, by decide, by decide⟩)
     (by decide)⟩

/-- C8: diffing against a list obtained by inserting one fresh-keyed item
at position `i` of the previous list assigns the new item order `i`,
moves every previous item at index `j` to order `j` (if `j < i`) or
`j + 1` (if `j ≥ i`), and leaves the registry holding `n + 1` orders
forming exactly `{0, ..., n}`. -/
theorem C8_insertion_via_diff (s : GridState) (L L2 : List Item)
    (newItem : Item) (i : Nat) (hWF : WFcore s)
    (hnd : (keysOf L).Nodup) (hnew : newItem.key ∉ keysOf L)
    (hi : i ≤ L.length)
    (hL2 : L2 = L.take i ++ newItem :: L.drop i) :
    (diffData s L2).1.orderMap.length = L.length + 1 ∧
    ordersM (diffData s L2).1 = rangeM (L.length + 1) ∧
    alGet (diffData s L2).1.orderMap newItem.key = some (i : Int) ∧
    ∀ j (hj : j < L.length),
      alGet (diffData s L2).1.orderMap (L.get ⟨j, hj⟩).key =
        some (((if j < i then j else j + 1) : Nat) : Int) := by
  have hlt : (L.take i).length = i := by
    rw [List.length_take]
    omega
  have hlen2 : L2.length = L.length + 1 := by
    rw [hL2]
    simp only [List.length_append, List.length_cons, List.length_take,
      List.length_drop]
    omega
  have hnd2 : (keysOf L2).Nodup := by
    have hperm : (keysOf L2).Perm (newItem.key :: keysOf L) := by
      rw [hL2]
      simp only [keysOf, List.map_append, List.map_cons]
      refine List.perm_middle.trans ?_
      rw [← List.map_append, List.take_append_drop]
    exact hperm.symm.nodup (List.nodup_cons.2 ⟨hnew, hnd⟩)
  obtain ⟨sWF, sidx, snone, skeys⟩ := diffData_spec s L2 hWF hnd2
  obtain ⟨hPerm, hil, hol⟩ := diffData_permInv s L2 hWF hnd2
  refine ⟨?_, ?_, ?_, ?_⟩
  · rw [hol, hlen2]
  · unfold PermInv at hPerm
    rw [hPerm, hil, hlen2]
  · have hi2 : i < L2.length := by omega
    have hg2 : L2.get? i = some newItem := by
      rw [hL2, List.get?_append_right (by rw [hlt]), hlt, Nat.sub_self]
      rfl
    have hget : L2.get ⟨i, hi2⟩ = newItem := by
      rw [List.get?_eq_get hi2] at hg2
      exact Option.some.inj hg2
    have := (sidx i hi2).1
    rw [hget] at this
    exact this
  · intro j hj
    by_cases hji : j < i
    · have hj2 : j < L2.length := by omega
      have hg2 : L2.get? j = some (L.get ⟨j, hj⟩) := by
        rw [hL2, List.get?_append (by rw [hlt]; omega),
          List.get?_take hji, List.get?_eq_get hj]
      have hget : L2.get ⟨j, hj2⟩ = L.get ⟨j, hj⟩ := by
        rw [List.get?_eq_get hj2] at hg2
        exact Option.some.inj hg2
      have := (sidx j hj2).1
      rw [hget] at this
      rw [this, if_pos hji]
    · have hj2 : j + 1 < L2.length := by omega
      have hg2 : L2.get? (j + 1) = some (L.get ⟨j, hj⟩) := by
        rw [hL2, List.get?_append_right (by rw [hlt]; omega), hlt,
          show j + 1 - i = (j - i) + 1 from by omega,
          List.get?_cons_succ, List.get?_drop,
          show i + (j - i) = j from by omega, List.get?_eq_get hj]
      have hget : L2.get ⟨j + 1, hj2⟩ = L.get ⟨j, hj⟩ := by
        rw [List.get?_eq_get hj2] at hg2
        exact Option.some.inj hg2
      have := (sidx (j + 1) hj2).1
      rw [hget] at this
      rw [this, if_neg hji]

theorem C8_insertion_via_diff_witness :
    WFcore g4state ∧ gItem2.key ∉ keysOf [gItem0, gItem1] ∧
    alGet (diffData g4state [gItem0, gItem2, gItem1]).1.orderMap
      gItem2.key = some (1 : Int) :=
  ⟨by unfold WFcore; exact ⟨by decide, by decide, by decide, by decide⟩,
   by decide,
   (C8_insertion_via_diff g4state [gItem0, gItem1]
     [gItem0, gItem2, gItem1] gItem2 1
     (by unfold WFcore; exact ⟨by decide, by decide, by decide, by decide⟩)
     (by decide) (by decide) (by decide) rfl).2.2.1⟩
